import Mathlib

/-!
Verification of the tree-construction and filtering engine of the
tempo-dex-map repository (`src/tempo-app/src/fetchTokens.ts`).

The engine ingests a flat list of token records and a value threshold and
produces a single tree plus two counters.  The shallow embedding below
translates the TypeScript of `buildTree` and its helpers into Lean:

* JavaScript numbers carrying token values are modelled as rationals `ℚ`;
* `String.prototype.toLowerCase()` is modelled by mapping `Char.toLower`;
* JavaScript `Map` objects (insertion-ordered; `set` keeps the original
  position of an existing key) are modelled as association lists;
* JavaScript `Set` objects used only for membership are modelled as lists;
* the `while` loop walking ancestor chains always terminates (each
  iteration adds a fresh key to the visible set), so it is modelled with an
  explicit iteration budget that provably never runs out (`walkF_stable`);
* the recursive tree traversals diverge in JavaScript when parent chains
  are cyclic (mutual `children` references), so tree materialisation
  carries an explicit recursion depth `fuel`; `none` models the stack
  overflow of the source;
* `Array.prototype.sort` (required to be stable by the ECMAScript spec) is
  modelled as a stable insertion sort driven by the exact comparator of the
  source; `sortTree_srcEq` shows the model satisfies the literal top-down
  recurrence of `sortChildren`.
-/

namespace TempoDex

/-- `TokenInfo` from `fetchTokens.ts` (lines 14–21): the flat record for one
token.  `totalSupply` is the JS number holding the converted supply. -/
structure TokenInfo where
  address : String
  name : String
  symbol : String
  currency : String
  quoteToken : String
  totalSupply : ℚ
deriving DecidableEq

/-- `zeroAddress` from viem: the sentinel parent address. -/
def zeroAddress : String := "0x0000000000000000000000000000000000000000"

/-- Model of `String.prototype.toLowerCase()` (addresses are ASCII). -/
def lower (s : String) : String := String.mk (s.data.map Char.toLower)

/-- `zeroAddress.toLowerCase()` as it appears in every comparison. -/
def zeroAddrL : String := lower zeroAddress

/-- Association list modelling a JS `Map<string, TokenInfo>`. -/
abbrev AList := List (String × TokenInfo)

/-- `map.set(k, v)`: update the binding of `k` in place, otherwise append at
the end — a JS `Map` iterates in insertion order and `set` on an existing
key keeps its original position. -/
def mapSet : AList → String → TokenInfo → AList
  | [], k, v => [(k, v)]
  | p :: ps, k, v => if p.1 = k then (k, v) :: ps else p :: mapSet ps k v

/-- `map.get(k)`, returning `undefined` as `none`. -/
def mapGet (m : AList) (k : String) : Option TokenInfo :=
  (m.find? (fun p => p.1 = k)).map (·.2)

/-- The keys of a map, in insertion order. -/
def keysOf (m : AList) : List String := m.map Prod.fst

/-- `set.add(a)` for a JS `Set` used only for membership tests. -/
def insertAddr (v : List String) (a : String) : List String :=
  if a ∈ v then v else a :: v

/-- Lines 99–101: index all tokens by lower-cased address; later records
overwrite earlier ones (`byAddr.set`). -/
def byAddrOf (tokens : List TokenInfo) : AList :=
  tokens.foldl (fun m t => mapSet m (lower t.address) t) []

/-- Lines 110–114: seed the visible set with every record whose `quoteToken`
is the zero address. -/
def seedsOf (tokens : List TokenInfo) : List String :=
  tokens.foldl
    (fun v t => if lower t.quoteToken = zeroAddrL then insertAddr v (lower t.address) else v) []

/-- Lines 120–123: the addresses of records meeting the threshold
(`t.totalSupply >= minTvl`). -/
def meetsOf (tokens : List TokenInfo) (minTvl : ℚ) : List String :=
  tokens.foldl
    (fun v t => if minTvl ≤ t.totalSupply then insertAddr v (lower t.address) else v) []

/-- Lines 126–133: the `while` loop walking one ancestor chain, with an
explicit iteration budget.  Every iteration adds a fresh key of `m` to `v`,
so `walkBound` below strictly bounds the number of iterations and the
budget never runs out (`walkF_stable`). -/
def walkF (m : AList) : Nat → List String → String → List String
  | 0, v, _ => v
  | Nat.succ f, v, cur =>
    if cur = "" ∨ cur ∈ v then v
    else
      match mapGet m cur with
      | none => cur :: v
      | some tok =>
        if lower tok.quoteToken = zeroAddrL then cur :: v
        else walkF m f (cur :: v) (lower tok.quoteToken)

/-- Strict bound on the number of iterations the `while` loop can make when
started on visible set `v`. -/
def walkBound (m : AList) (v : List String) : Nat :=
  ((keysOf m).filter (fun k => !(k ∈ v : Bool))).length + 1

/-- Lines 126–133: the `while` loop walking one ancestor chain. -/
def walk (m : AList) (v : List String) (cur : String) : List String :=
  walkF m (walkBound m v) v cur

/-- Lines 107–135: the visible set.  When `minTvl <= 0` every record is
visible; otherwise the threshold pass feeds the ancestor-walk pass. -/
def visibleSetOf (tokens : List TokenInfo) (minTvl : ℚ) : List String :=
  if minTvl ≤ 0 then
    tokens.foldl (fun v t => insertAddr v (lower t.address)) (seedsOf tokens)
  else
    (meetsOf tokens minTvl).foldl (fun v s => walk (byAddrOf tokens) v s) (seedsOf tokens)

/-- Lines 138–150: the node map holds one entry per visible address; later
records overwrite earlier ones, keeping the first-insertion position. -/
def nodeMapOf (tokens : List TokenInfo) (minTvl : ℚ) : AList :=
  tokens.foldl
    (fun m t =>
      if lower t.address ∈ visibleSetOf tokens minTvl then mapSet m (lower t.address) t else m) []

/-- Lines 152–161: the children pushed onto the node keyed `p`, in node-map
order.  A node is pushed only in the `else` branch, i.e. only when its own
parent key is not the sentinel, hence the guard. -/
def childKeys (m : AList) (p : String) : List String :=
  if p = zeroAddrL then []
  else keysOf (m.filter (fun kt => lower kt.2.quoteToken = p))

/-- Lines 152–161: `rootNode` is overwritten by every sentinel-parented node
met while iterating the node map, so the last one wins. -/
def rootKeyOf (m : AList) : Option String :=
  m.foldl (fun r kt => if lower kt.2.quoteToken = zeroAddrL then some kt.1 else r) none

/-- `TokenNode` from `fetchTokens.ts` (lines 23–31). -/
inductive TokenNode where
  | mk (address name symbol currency quoteToken : String) (totalSupply : ℚ)
      (children : List TokenNode)

def TokenNode.address : TokenNode → String | .mk a _ _ _ _ _ _ => a
def TokenNode.name : TokenNode → String | .mk _ n _ _ _ _ _ => n
def TokenNode.symbol : TokenNode → String | .mk _ _ s _ _ _ _ => s
def TokenNode.currency : TokenNode → String | .mk _ _ _ c _ _ _ => c
def TokenNode.quoteToken : TokenNode → String | .mk _ _ _ _ q _ _ => q
def TokenNode.totalSupply : TokenNode → ℚ | .mk _ _ _ _ _ ts _ => ts
def TokenNode.children : TokenNode → List TokenNode | .mk _ _ _ _ _ _ c => c

/-- The node built for a record (lines 141–149). -/
def mkNode (t : TokenInfo) (kids : List TokenNode) : TokenNode :=
  TokenNode.mk t.address t.name t.symbol t.currency t.quoteToken t.totalSupply kids

mutual
/-- Decidable equality of trees (not derivable automatically for this nested
inductive). -/
def decEqTokenNode : (a b : TokenNode) → Decidable (a = b)
  | .mk a1 b1 c1 d1 e1 f1 g1, .mk a2 b2 c2 d2 e2 f2 g2 =>
    match decEq (α := String × String × String × String × String × ℚ)
        (a1, b1, c1, d1, e1, f1) (a2, b2, c2, d2, e2, f2), decEqListTokenNode g1 g2 with
    | isTrue h, isTrue hg => isTrue (by
        obtain ⟨h1, h2, h3, h4, h5, h6⟩ := Prod.mk.injEq .. ▸ h
        simp_all)
    | isFalse h, _ => isFalse (by
        intro he
        injection he with h1 h2 h3 h4 h5 h6 h7
        exact h (by rw [h1, h2, h3, h4, h5, h6]))
    | _, isFalse hg => isFalse (by
        intro he
        injection he
        contradiction)
def decEqListTokenNode : (l1 l2 : List TokenNode) → Decidable (l1 = l2)
  | [], [] => isTrue rfl
  | [], _ :: _ => isFalse (by intro h; cases h)
  | _ :: _, [] => isFalse (by intro h; cases h)
  | a :: l1, b :: l2 =>
    match decEqTokenNode a b, decEqListTokenNode l1 l2 with
    | isTrue h1, isTrue h2 => isTrue (by rw [h1, h2])
    | isFalse h1, _ => isFalse (by intro he; injection he; contradiction)
    | _, isFalse h2 => isFalse (by intro he; injection he; contradiction)
end

instance : DecidableEq TokenNode := decEqTokenNode

/-- Materialise one level of nodes from a list of node-map keys, given the
builder for a single key. -/
def buildLevel (rec : String → Option TokenNode) : List String → Option (List TokenNode)
  | [] => some []
  | k :: ks =>
    match rec k, buildLevel rec ks with
    | some n, some ns => some (n :: ns)
    | _, _ => none

/-- Materialise the tree hanging from one node-map key.  In the source the
nodes are linked by object references; a cyclic parent chain makes the
recursive traversals (`sortChildren`, `subtreeTvl`, `countDescendants`)
diverge with a stack overflow, which this model renders as `none` when the
recursion depth `fuel` is exhausted. -/
def buildNode (m : AList) : Nat → String → Option TokenNode
  | 0, _ => none
  | Nat.succ f, k =>
    match mapGet m k with
    | none => none
    | some t =>
      match buildLevel (buildNode m f) (childKeys m k) with
      | none => none
      | some kids => some (mkNode t kids)

/-- Materialise the trees hanging from a list of node-map keys. -/
def buildForest (m : AList) (fuel : Nat) (ks : List String) : Option (List TokenNode) :=
  buildLevel (buildNode m fuel) ks

mutual
/-- `countDescendants` (lines 91–95): size of a subtree, counting the node
itself. -/
def countDescendants : TokenNode → Nat
  | .mk _ _ _ _ _ _ kids => 1 + countDescendantsList kids
def countDescendantsList : List TokenNode → Nat
  | [] => 0
  | c :: cs => countDescendants c + countDescendantsList cs
end

mutual
/-- `subtreeTvl` (lines 190–194): sum of `totalSupply` over a subtree. -/
def subtreeTvl : TokenNode → ℚ
  | .mk _ _ _ _ _ ts kids => ts + subtreeTvlList kids
def subtreeTvlList : List TokenNode → ℚ
  | [] => 0
  | c :: cs => subtreeTvl c + subtreeTvlList cs
end

/-- The comparator of `sortChildren` (lines 177–182): the JS number whose
sign decides the order of `a` and `b`. -/
def cmpNodes (a b : TokenNode) : ℚ :=
  let tvlDiff := subtreeTvl b - subtreeTvl a
  if 1/100 < |tvlDiff| then tvlDiff
  else (countDescendants b : ℚ) - (countDescendants a : ℚ)

/-- Stable insertion of `a` into an already sorted list: `a` goes before the
first element it precedes or ties with (`cmpNodes a b ≤ 0`), reproducing the
unique stable order of `Array.prototype.sort`. -/
def insertNode (a : TokenNode) : List TokenNode → List TokenNode
  | [] => [a]
  | b :: bs => if cmpNodes a b ≤ 0 then a :: b :: bs else b :: insertNode a bs

/-- Stable sort of a children array by `cmpNodes`. -/
def isortNodes : List TokenNode → List TokenNode
  | [] => []
  | a :: rest => insertNode a (isortNodes rest)

mutual
/-- `sortChildren` (lines 176–185) sorts a node's children with `cmpNodes`
and recurses into each child.  `cmpNodes` only reads `subtreeTvl` and
`countDescendants`, both invariant under reordering of descendants, so
sorting the subtrees first and the level afterwards builds the same tree;
this structural formulation computes, and `sortTree_srcEq` proves that it
satisfies the literal top-down recurrence of the source. -/
def sortTree : TokenNode → TokenNode
  | .mk a n s c q ts kids => TokenNode.mk a n s c q ts (isortNodes (sortForest kids))
def sortForest : List TokenNode → List TokenNode
  | [] => []
  | k :: ks => sortTree k :: sortForest ks
end

/-- The record returned by `buildTree` (lines 98 and 187). -/
structure BuildResult where
  root : TokenNode
  tokenCount : Nat
  visibleCount : Nat

/-- `buildTree` (lines 98–188) with an explicit recursion depth for the tree
materialisation; `none` models the stack overflow that the source suffers on
cyclic parent chains. -/
def buildTreeF (tokens : List TokenInfo) (minTvl : ℚ) (fuel : Nat) : Option BuildResult :=
  let byAddr := byAddrOf tokens
  let m := nodeMapOf tokens minTvl
  match rootKeyOf m with
  | some k =>
    match buildNode m fuel k with
    | none => none
    | some n => some ⟨sortTree n, byAddr.length, m.length⟩
  | none =>
    match buildForest m fuel (keysOf m) with
    | none => none
    | some kids =>
      some ⟨sortTree (TokenNode.mk zeroAddress "Root" "ROOT" "USD" zeroAddress 0 kids),
        byAddr.length, m.length⟩

/-- `buildTree` with a depth budget that suffices for every acyclic input: a
simple parent path can visit each node-map entry at most once. -/
def buildTree (tokens : List TokenInfo) (minTvl : ℚ) : Option BuildResult :=
  buildTreeF tokens minTvl (tokens.length + 1)

mutual
/-- Pre-order listing `(depth, address, quoteToken, totalSupply)` of a tree,
used to state concrete facts about outputs. -/
def encodeTree : Nat → TokenNode → List (Nat × String × String × ℚ)
  | d, .mk a _ _ _ q ts kids => (d, a, q, ts) :: encodeForest (d + 1) kids
def encodeForest : Nat → List TokenNode → List (Nat × String × String × ℚ)
  | _, [] => []
  | d, k :: ks => encodeTree d k ++ encodeForest d ks
end

mutual
/-- Every node of a tree: the root and all of its descendants. -/
def allNodes : TokenNode → List TokenNode
  | .mk a n s c q ts kids => TokenNode.mk a n s c q ts kids :: allNodesList kids
def allNodesList : List TokenNode → List TokenNode
  | [] => []
  | k :: ks => allNodes k ++ allNodesList ks
end

/-- The proper nodes of a tree: every node except the root position. -/
def properNodes (n : TokenNode) : List TokenNode := allNodesList n.children

mutual
/-- All `(parent, child)` pairs of a tree: `(p, c)` is listed exactly when
`c` sits in `p.children` at some position of the tree. -/
def parentPairs : TokenNode → List (TokenNode × TokenNode)
  | .mk a n s c q ts kids =>
    kids.map (fun k => (TokenNode.mk a n s c q ts kids, k)) ++ parentPairsList kids
def parentPairsList : List TokenNode → List (TokenNode × TokenNode)
  | [] => []
  | k :: ks => parentPairs k ++ parentPairsList ks
end

/-- The source ordering relation on siblings: `a` may sit (weakly) before
`b` exactly when the comparator does not strictly favour `b`, i.e. when the
subtree sums differ by more than `0.01` the larger sum goes first, and
otherwise the larger descendant count goes first. -/
def childLE (a b : TokenNode) : Prop :=
  if 1/100 < |subtreeTvl a - subtreeTvl b| then subtreeTvl b < subtreeTvl a
  else countDescendants b ≤ countDescendants a

/-- Every map entry is keyed by the lower-cased address of its record; holds
for `byAddrOf` and `nodeMapOf` by construction. -/
def KeyInv (m : AList) : Prop := ∀ kt ∈ m, lower kt.2.address = kt.1

/-- The structural well-formedness proved about every materialised tree:
each child's declared parent is the address of the node holding it, and no
child position holds a sentinel-parented node. -/
def GoodPairs (n : TokenNode) : Prop :=
  ∀ pc ∈ parentPairs n,
    lower pc.1.address = lower pc.2.quoteToken ∧ lower pc.2.quoteToken ≠ zeroAddrL

/-- `InChain m v0 s x`: the record graph `m` contains a parent chain from
`s` to `x` that avoids the initially visible set `v0`, never crosses the
sentinel, and never passes through the empty string (which stops the JS
`while` loop).  This is the order-independent description of what one
ancestor walk can reach. -/
inductive InChain (m : AList) (v0 : List String) : String → String → Prop
  | refl (s : String) : s ≠ "" → s ∉ v0 → InChain m v0 s s
  | step (s x : String) (tok : TokenInfo) : s ≠ "" → s ∉ v0 → mapGet m s = some tok →
      lower tok.quoteToken ≠ zeroAddrL → InChain m v0 (lower tok.quoteToken) x →
      InChain m v0 s x

/-- A visible set is chain-closed (relative to the seeds `v0`) when every
non-seed member with a real, non-sentinel, non-empty parent key has that
parent visible as well. -/
def chainClosed (m : AList) (v0 v : List String) : Prop :=
  ∀ y ∈ v, y ∉ v0 → ∀ tok, mapGet m y = some tok →
    lower tok.quoteToken ≠ zeroAddrL → lower tok.quoteToken ≠ "" →
    lower tok.quoteToken ∈ v

/-- Like `chainClosed`, but the pending walk target `c` is also an accepted
parent: the invariant holding at the head of each loop iteration. -/
def almostClosed (m : AList) (v0 v : List String) (c : String) : Prop :=
  ∀ y ∈ v, y ∉ v0 → ∀ tok, mapGet m y = some tok →
    lower tok.quoteToken ≠ zeroAddrL → lower tok.quoteToken ≠ "" →
    (lower tok.quoteToken ∈ v ∨ lower tok.quoteToken = c)

/-- The root of a `buildTree` result, with a dummy node for the impossible
`none` case; only used to state closed witness facts. -/
def rootOf (o : Option BuildResult) : TokenNode :=
  o.elim (TokenNode.mk "" "" "" "" "" 0 []) (·.root)

/-- The `visibleCount` of a `buildTree` result (`0` when the build
diverged); only used to state closed witness facts. -/
def visibleCountOf (o : Option BuildResult) : Nat := o.elim 0 (·.visibleCount)

/-! ### Concrete inputs used by the claim instances -/

/-- The root record of the three-record scenario of the specification. -/
def exRoot : TokenInfo := ⟨"R", "Root token", "R", "USD", zeroAddress, 0⟩
/-- Child of the root with value 500. -/
def exA : TokenInfo := ⟨"A", "Token A", "A", "USD", "R", 500⟩
/-- Child of `exA` with value 10. -/
def exB : TokenInfo := ⟨"B", "Token B", "B", "USD", "A", 10⟩
/-- The scenario record list `[root, A, B]`. -/
def scenarioTokens : List TokenInfo := [exRoot, exA, exB]

/-- First of two sentinel-parented records. -/
def exR1 : TokenInfo := ⟨"R1", "", "", "", zeroAddress, 0⟩
/-- Second of two sentinel-parented records. -/
def exR2 : TokenInfo := ⟨"R2", "", "", "", zeroAddress, 0⟩
/-- Two records both declaring the sentinel parent. -/
def twoRootTokens : List TokenInfo := [exR1, exR2]

/-- A sentinel-parented record later overwritten at the same address. -/
def dupSeed1 : TokenInfo := ⟨"A", "", "", "", zeroAddress, 0⟩
/-- The overwriting record: same address, parent `B`, value below any
positive threshold. -/
def dupSeed2 : TokenInfo := ⟨"A", "", "", "", "B", 0⟩
/-- The declared parent of `dupSeed2`; below threshold, so filtered out. -/
def dupSeedB : TokenInfo := ⟨"B", "", "", "", "C", 0⟩
/-- Record list on which a node survives whose declared parent is filtered
out. -/
def dupSeedTokens : List TokenInfo := [dupSeed1, dupSeed2, dupSeedB]

/-- Root for the comparator scenarios. -/
def tieR : TokenInfo := ⟨"R", "", "", "", zeroAddress, 0⟩
/-- Leaf child with subtree sum 100.02 (1 descendant). -/
def tieC1 : TokenInfo := ⟨"C1", "", "", "", "R", mkRat 10002 100⟩
/-- Leaf child with subtree sum 100.005 (1 descendant). -/
def tieC1b : TokenInfo := ⟨"C1", "", "", "", "R", mkRat 100005 1000⟩
/-- Child whose subtree sums to 100.00 over 5 nodes. -/
def tieC2 : TokenInfo := ⟨"C2", "", "", "", "R", 60⟩
/-- Grandchild contributing 10 to `tieC2`. -/
def tieD1 : TokenInfo := ⟨"D1", "", "", "", "C2", 10⟩
/-- Grandchild contributing 10 to `tieC2`. -/
def tieD2 : TokenInfo := ⟨"D2", "", "", "", "C2", 10⟩
/-- Grandchild contributing 10 to `tieC2`. -/
def tieD3 : TokenInfo := ⟨"D3", "", "", "", "C2", 10⟩
/-- Grandchild contributing 10 to `tieC2`. -/
def tieD4 : TokenInfo := ⟨"D4", "", "", "", "C2", 10⟩
/-- Children with subtree sums `[100.02, 100.00]` and descendant counts
`[1, 5]`; `C2` listed first so the sort must actively order them. -/
def tieTokens : List TokenInfo := [tieR, tieC2, tieD1, tieD2, tieD3, tieD4, tieC1]
/-- Children with subtree sums `[100.005, 100.00]` and descendant counts
`[1, 5]`; `C1` listed first so the sort must actively order them. -/
def tieTokensAmended : List TokenInfo := [tieR, tieC1b, tieC2, tieD1, tieD2, tieD3, tieD4]

/-- The tree materialised from `tieTokens` before sorting (node-map link
order: `C2` first). -/
def tieUnsorted : TokenNode :=
  TokenNode.mk "R" "" "" "" zeroAddress 0
    [TokenNode.mk "C2" "" "" "" "R" 60
      [TokenNode.mk "D1" "" "" "" "C2" 10 [],
       TokenNode.mk "D2" "" "" "" "C2" 10 [],
       TokenNode.mk "D3" "" "" "" "C2" 10 [],
       TokenNode.mk "D4" "" "" "" "C2" 10 []],
     TokenNode.mk "C1" "" "" "" "R" (mkRat 10002 100) []]

/-- The tree materialised from `tieTokensAmended` before sorting (node-map
link order: `C1` first). -/
def tieUnsortedAmended : TokenNode :=
  TokenNode.mk "R" "" "" "" zeroAddress 0
    [TokenNode.mk "C1" "" "" "" "R" (mkRat 100005 1000) [],
     TokenNode.mk "C2" "" "" "" "R" 60
      [TokenNode.mk "D1" "" "" "" "C2" 10 [],
       TokenNode.mk "D2" "" "" "" "C2" 10 [],
       TokenNode.mk "D3" "" "" "" "C2" 10 [],
       TokenNode.mk "D4" "" "" "" "C2" 10 []]]

/-- A record whose declared parent matches no record. -/
def orphanA : TokenInfo := ⟨"A", "", "", "", "X", 5⟩
/-- A record whose declared parent is the visible record `orphanA`. -/
def orphanB : TokenInfo := ⟨"B", "", "", "", "A", 3⟩
/-- Record list with no sentinel-parent record: the root is synthesized. -/
def orphanTokens : List TokenInfo := [orphanA, orphanB]

/-- A record declaring itself as its own parent: the smallest cyclic parent
chain. -/
def selfTok : TokenInfo := ⟨"A", "", "", "", "A", 0⟩

/-- Record at address `A` with value 500, later overwritten. -/
def dupHigh : TokenInfo := ⟨"A", "first", "", "", "R", 500⟩
/-- Overwriting record at address `A` with value 10. -/
def dupLow : TokenInfo := ⟨"A", "second", "", "", "R", 10⟩
/-- Duplicate-address list: the surviving record's value is below the
threshold, the overwritten one's above. -/
def dupValueTokens : List TokenInfo := [tieR, dupHigh, dupLow]

/-! ### The walk budget never runs out -/

/-- A successful `mapGet` witnesses key membership. -/
theorem mapGet_mem_keys {m : AList} {k : String} {t : TokenInfo}
    (h : mapGet m k = some t) : k ∈ keysOf m := by
  unfold mapGet at h
  cases hf : m.find? (fun p => p.1 = k) with
  | none => rw [hf] at h; simp at h
  | some q =>
    have hq : q ∈ m := List.mem_of_find?_eq_some hf
    have hq1 : q.1 = k := by
      have := List.find?_some hf
      simpa using this
    exact hq1 ▸ List.mem_map_of_mem Prod.fst hq

/-- Excluding one more, still-present element strictly shrinks a filtered
list: the loop measure of the ancestor walk. -/
theorem filter_cons_exclusion_lt (l v : List String) (c : String)
    (hc : c ∈ l) (hv : c ∉ v) :
    (l.filter (fun k => !(k ∈ c :: v : Bool))).length <
      (l.filter (fun k => !(k ∈ v : Bool))).length := by
  have hsub : (l.filter (fun k => !(k ∈ c :: v : Bool))).Sublist
      (l.filter (fun k => !(k ∈ v : Bool))) := by
    apply List.monotone_filter_right
    intro a ha
    simp only [Bool.not_eq_true', decide_eq_false_iff_not] at ha ⊢
    intro hav
    exact ha (List.mem_cons_of_mem _ hav)
  refine Nat.lt_of_le_of_ne hsub.length_le (fun hlen => ?_)
  have heq := hsub.eq_of_length hlen
  have hin : c ∈ l.filter (fun k => !(k ∈ v : Bool)) := by
    simp [List.mem_filter, hc, hv]
  rw [← heq] at hin
  simp [List.mem_filter] at hin

/-- The iteration budget is irrelevant as soon as it exceeds the number of
keys of `m` not yet visible: the `while` loop genuinely terminates and
`walk` computes its limit. -/
theorem walkF_stable {m : AList} :
    ∀ {f g : Nat} {v : List String} {cur : String},
      ((keysOf m).filter (fun k => !(k ∈ v : Bool))).length < f →
      ((keysOf m).filter (fun k => !(k ∈ v : Bool))).length < g →
      walkF m f v cur = walkF m g v cur := by
  intro f
  induction f with
  | zero => intro g v cur hf; omega
  | succ f ih =>
    intro g v cur hf hg
    match g, hg with
    | Nat.succ g, hg =>
      show walkF m (f + 1) v cur = walkF m (g + 1) v cur
      simp only [walkF]
      by_cases hstop : cur = "" ∨ cur ∈ v
      · simp [hstop]
      · simp only [if_neg hstop]
        cases hget : mapGet m cur with
        | none => rfl
        | some tok =>
          by_cases hz : lower tok.quoteToken = zeroAddrL
          · simp [hz]
          · simp only [if_neg hz]
            have hlt := filter_cons_exclusion_lt (keysOf m) v cur
              (mapGet_mem_keys hget) (fun h => hstop (Or.inr h))
            exact ih (by omega) (by omega)

/-! ### Unfolding `buildTree` by root case -/

/-- When some visible node declares the sentinel parent, `buildTree`
materialises and sorts the tree rooted at the (last) sentinel key. -/
theorem buildTree_genuine {tokens : List TokenInfo} {minTvl : ℚ} {k : String}
    (hk : rootKeyOf (nodeMapOf tokens minTvl) = some k) :
    buildTree tokens minTvl =
      (buildNode (nodeMapOf tokens minTvl) (tokens.length + 1) k).map
        (fun n => ⟨sortTree n, (byAddrOf tokens).length, (nodeMapOf tokens minTvl).length⟩) := by
  simp only [buildTree, buildTreeF, hk]
  cases buildNode (nodeMapOf tokens minTvl) (tokens.length + 1) k <;> rfl

/-- When no visible node declares the sentinel parent, `buildTree` hangs
every node of the node map under a synthesized placeholder root. -/
theorem buildTree_synthetic {tokens : List TokenInfo} {minTvl : ℚ}
    (hk : rootKeyOf (nodeMapOf tokens minTvl) = none) :
    buildTree tokens minTvl =
      (buildForest (nodeMapOf tokens minTvl) (tokens.length + 1)
          (keysOf (nodeMapOf tokens minTvl))).map
        (fun kids =>
          ⟨sortTree (TokenNode.mk zeroAddress "Root" "ROOT" "USD" zeroAddress 0 kids),
            (byAddrOf tokens).length, (nodeMapOf tokens minTvl).length⟩) := by
  simp only [buildTree, buildTreeF, hk]
  cases buildForest (nodeMapOf tokens minTvl) (tokens.length + 1)
    (keysOf (nodeMapOf tokens minTvl)) <;> rfl

/-! ### Concrete claim instances -/

/-- C9: on records `[root (sentinel parent, value 0), A (parent root, value
500), B (parent A, value 10)]`, threshold 0 yields the chain root→A→B with
`visibleCount` 3, and threshold 100 yields root→A (B excluded) with
`visibleCount` 2. -/
theorem C9_scenario :
    ((buildTree scenarioTokens 0).map (fun r => (encodeTree 0 r.root, r.visibleCount)) =
      some ([(0, "R", zeroAddress, 0), (1, "A", "R", 500), (2, "B", "A", 10)], 3)) ∧
    ((buildTree scenarioTokens 100).map (fun r => (encodeTree 0 r.root, r.visibleCount)) =
      some ([(0, "R", zeroAddress, 0), (1, "A", "R", 500)], 2)) :=
  ⟨by decide, by decide⟩

/-- C3 counterexample: with child subtree sums `[100.02, 100.00]` and
descendant counts `[1, 5]` the sums differ by `0.02 > 0.01`, so the
comparator uses the primary key and the `100.02` child sorts first — the
`100.00`/5-descendant child does *not* sort first as the claim states (it
was even listed first in the input and is actively moved behind). -/
theorem C3_counterexample :
    (buildTree tieTokens 0).map
        (fun r => r.root.children.map (fun c => (c.address, subtreeTvl c, countDescendants c))) =
      some [("C1", mkRat 10002 100, 1), ("C2", 100, 5)] := by
  have hk : rootKeyOf (nodeMapOf tieTokens 0) = some "r" := by decide
  have hU : buildNode (nodeMapOf tieTokens 0) (tieTokens.length + 1) "r" =
      some tieUnsorted := by decide
  rw [buildTree_genuine hk, hU]
  have habs : |(1 : ℚ)/50| = 1/50 := abs_of_pos (by norm_num)
  norm_num [sortTree, sortForest, isortNodes, insertNode, cmpNodes, subtreeTvl,
    subtreeTvlList, countDescendants, countDescendantsList, tieUnsorted,
    TokenNode.children, TokenNode.address, Rat.mkRat_eq_div, habs]

/-- C3 amended: when the two subtree sums differ by at most `0.01` — here
`[100.005, 100.00]` with descendant counts `[1, 5]`, a difference strictly
inside the tolerance — the descendant-count tie-break wins and the
`100.00`/5-descendant child sorts first (it was listed second in the input
and is actively moved ahead). -/
theorem C3_amended :
    (buildTree tieTokensAmended 0).map
        (fun r => r.root.children.map (fun c => (c.address, subtreeTvl c, countDescendants c))) =
      some [("C2", 100, 5), ("C1", mkRat 100005 1000, 1)] := by
  have hk : rootKeyOf (nodeMapOf tieTokensAmended 0) = some "r" := by decide
  have hU : buildNode (nodeMapOf tieTokensAmended 0) (tieTokensAmended.length + 1) "r" =
      some tieUnsortedAmended := by decide
  rw [buildTree_genuine hk, hU]
  have habs : |(1 : ℚ)/200| = 1/200 := abs_of_pos (by norm_num)
  norm_num [sortTree, sortForest, isortNodes, insertNode, cmpNodes, subtreeTvl,
    subtreeTvlList, countDescendants, countDescendantsList, tieUnsortedAmended,
    TokenNode.children, TokenNode.address, Rat.mkRat_eq_div, habs]

/-- C4 counterexample: with two visible sentinel-parent records `R1, R2`
(in that order), the returned root is `R2` — the *last* record encountered
in node-map order, not the first as the claim states. -/
theorem C4_counterexample :
    (buildTree twoRootTokens 0).map (fun r => encodeTree 0 r.root) =
      some [(0, "R2", zeroAddress, 0)] := by
  decide

/-- C5 counterexample: with no sentinel-parent record, the synthesized root
takes *all* visible nodes as children: here `B`, whose parent `A` is
visible, appears both under `A` (depth 2) and directly under the synthetic
root (depth 1) — and the placeholder's display fields are `Root`/`ROOT`/
`USD`, not empty. -/
theorem C5_counterexample :
    (buildTree orphanTokens 0).map (fun r => (encodeTree 0 r.root, r.root.name, r.root.symbol)) =
      some ([(0, zeroAddress, zeroAddress, 0), (1, "A", "X", 5), (2, "B", "A", 3),
        (1, "B", "A", 3)], "Root", "ROOT") := by
  with_unfolding_all decide

/-- C6 counterexample: with two sentinel-parent records only the last
becomes the tree (the other is attached nowhere), so the output tree has 1
node while `visibleCount` is 2 — `visibleCount` counts the node map, not
the nodes reachable in the tree. -/
theorem C6_counterexample :
    (buildTree twoRootTokens 0).map (fun r => (r.visibleCount, (allNodes r.root).length)) =
      some (2, 1) := by
  decide

/-- C1 counterexample: a sentinel-parented record at address `A` is
overwritten by one with parent `B`; the stale seed keeps `A` visible while
`B` (value 0 < threshold 1) is filtered out, and no sentinel-parented node
survives, so the synthetic root holds the `A` node, whose declared parent
`B` exists among the records but is nowhere in the output tree. -/
theorem C1_counterexample :
    ((buildTree dupSeedTokens 1).map (fun r => encodeTree 0 r.root) =
      some [(0, zeroAddress, zeroAddress, 0), (1, "A", "B", 0)]) ∧
    (dupSeedTokens.map (fun t => lower t.address)).contains "b" = true :=
  ⟨by decide, by decide⟩

/-- C10 counterexample: with records of value 500 then 10 at the same
address `A` and threshold 100, the node for `A` is visible and carries the
*later* record's value 10 < 100: the earlier record was not discarded — its
value 500 made the address pass the threshold pass, which iterates over all
records rather than the address index. -/
theorem C10_counterexample :
    ((buildTree dupValueTokens 100).map (fun r => (encodeTree 0 r.root, r.visibleCount)) =
      some ([(0, "R", zeroAddress, 0), (1, "A", "R", 10)], 2)) ∧
    mapGet (byAddrOf dupValueTokens) (lower "A") = some dupLow ∧ dupLow.totalSupply < 100 :=
  ⟨by decide, by decide, by decide⟩

/-- C7: on the self-parented record the tree materialisation fails for
*every* recursion depth: the source's recursive traversals chase the cycle
`A → A` and overflow the stack, so `buildTree` is not total. -/
theorem C7_divergence : ∀ fuel, buildTreeF [selfTok] 0 fuel = none := by
  have hnode : ∀ f, buildNode (nodeMapOf [selfTok] 0) f "a" = none := by
    intro f
    induction f with
    | zero => rfl
    | succ f ih =>
      have ih2 : buildNode (nodeMapOf [selfTok] 0) f (lower selfTok.address) = none := ih
      have hget : mapGet (nodeMapOf [selfTok] 0) "a" = some selfTok := by decide
      have hck : childKeys (nodeMapOf [selfTok] 0) "a" = ["a"] := by decide
      simp only [buildNode, hget, hck, buildLevel, ih, ih2]
  intro fuel
  have hnode2 : buildNode (nodeMapOf [selfTok] 0) fuel (lower selfTok.address) = none :=
    hnode fuel
  have hroot : rootKeyOf (nodeMapOf [selfTok] 0) = none := by decide
  have hkeys : keysOf (nodeMapOf [selfTok] 0) = ["a"] := by decide
  simp only [buildTreeF, hroot, buildForest, hkeys, buildLevel, hnode fuel, hnode2]

/-! ### Association-list lemmas -/

/-- Lookup in a non-empty association list. -/
theorem mapGet_cons (k1 : String) (v1 : TokenInfo) (m : AList) (q : String) :
    mapGet ((k1, v1) :: m) q = if k1 = q then some v1 else mapGet m q := by
  by_cases h : k1 = q
  · have hp : (fun p => decide (p.1 = q)) (k1, v1) = true := by simp [h]
    simp [mapGet, List.find?_cons_of_pos _ hp, h]
  · have hp : ¬ (fun p => decide (p.1 = q)) (k1, v1) = true := by simp [h]
    simp [mapGet, List.find?_cons_of_neg _ hp, h]

/-- `mapSet` updates exactly the written key. -/
theorem mapGet_mapSet (m : AList) (k : String) (v : TokenInfo) (q : String) :
    mapGet (mapSet m k v) q = if q = k then some v else mapGet m q := by
  induction m with
  | nil =>
    show mapGet [(k, v)] q = if q = k then some v else mapGet [] q
    by_cases h : q = k
    · subst h; simp [mapGet_cons]
    · rw [mapGet_cons, if_neg (fun hh => h hh.symm), if_neg h]
  | cons p ps ih =>
    obtain ⟨p1, p2⟩ := p
    by_cases hp : p1 = k
    · subst hp
      have hset : mapSet ((p1, p2) :: ps) p1 v = (p1, v) :: ps := by simp [mapSet]
      rw [hset, mapGet_cons, mapGet_cons]
      by_cases h : q = p1
      · subst h; simp
      · rw [if_neg (fun hh => h hh.symm), if_neg h, if_neg (fun hh => h hh.symm)]
    · simp only [mapSet, if_neg hp]
      rw [mapGet_cons, mapGet_cons]
      by_cases hq : p1 = q
      · have hqk : ¬ q = k := fun h => hp (hq.trans h)
        rw [if_pos hq, if_neg hqk, if_pos hq]
      · rw [if_neg hq, if_neg hq, ih]

/-- `mapSet` only ever appends the written key. -/
theorem mem_keysOf_mapSet {m : AList} {k : String} {v : TokenInfo} {q : String} :
    q ∈ keysOf (mapSet m k v) ↔ q = k ∨ q ∈ keysOf m := by
  induction m with
  | nil => simp [mapSet, keysOf]
  | cons p ps ih =>
    obtain ⟨p1, p2⟩ := p
    by_cases hp : p1 = k
    · subst hp
      simp [mapSet, keysOf]
    · simp only [mapSet, if_neg hp, keysOf, List.map_cons, List.mem_cons] at ih ⊢
      rw [ih]
      tauto

/-- `mapSet` preserves key distinctness. -/
theorem nodup_keysOf_mapSet {m : AList} {k : String} {v : TokenInfo}
    (h : (keysOf m).Nodup) : (keysOf (mapSet m k v)).Nodup := by
  induction m with
  | nil => simp [mapSet, keysOf]
  | cons p ps ih =>
    obtain ⟨p1, p2⟩ := p
    simp only [keysOf, List.map_cons, List.nodup_cons] at h
    by_cases hp : p1 = k
    · subst hp
      have hset : mapSet ((p1, p2) :: ps) p1 v = (p1, v) :: ps := by simp [mapSet]
      rw [hset]
      simpa [keysOf] using h
    · simp only [mapSet, if_neg hp, keysOf, List.map_cons, List.nodup_cons]
      refine ⟨fun hc => ?_, ih h.2⟩
      rcases (mem_keysOf_mapSet (m := ps)).mp hc with hc | hc
      · exact hp hc
      · exact h.1 hc

/-- A key is present exactly when its lookup succeeds. -/
theorem mapGet_isSome_iff {m : AList} {k : String} :
    (mapGet m k).isSome ↔ k ∈ keysOf m := by
  induction m with
  | nil => simp [mapGet, keysOf]
  | cons p ps ih =>
    obtain ⟨p1, p2⟩ := p
    rw [mapGet_cons]
    by_cases hp : p1 = k
    · simp [hp, keysOf]
    · simp only [if_neg hp, keysOf, List.map_cons, List.mem_cons]
      rw [ih]
      simp only [keysOf]
      exact ⟨Or.inr, fun h => h.elim (fun he => absurd he.symm hp) id⟩

/-- A successful lookup returns an actual entry of the list. -/
theorem mem_of_mapGet {m : AList} {k : String} {t : TokenInfo}
    (h : mapGet m k = some t) : (k, t) ∈ m := by
  induction m with
  | nil => simp [mapGet] at h
  | cons p ps ih =>
    obtain ⟨p1, p2⟩ := p
    rw [mapGet_cons] at h
    by_cases hp : p1 = k
    · rw [if_pos hp] at h
      cases h
      exact hp ▸ List.mem_cons_self _ _
    · rw [if_neg hp] at h
      exact List.mem_cons_of_mem _ (ih h)

/-- `insertAddr` membership. -/
theorem mem_insertAddr {v : List String} {a q : String} :
    q ∈ insertAddr v a ↔ q = a ∨ q ∈ v := by
  unfold insertAddr
  by_cases h : a ∈ v
  · simp only [if_pos h]
    constructor
    · exact Or.inr
    · rintro (rfl | hq)
      · exact h
      · exact hq
  · simp [if_neg h]

/-- `insertAddr` never removes elements. -/
theorem subset_insertAddr (v : List String) (a : String) : v ⊆ insertAddr v a := by
  intro x hx
  exact mem_insertAddr.mpr (Or.inr hx)

/-- `getLast?` of a non-empty list, expressed through the tail. -/
theorem getLast?_cons_eq {α : Type} (a : α) (l : List α) :
    (a :: l).getLast? = some (l.getLast?.getD a) := by
  induction l generalizing a with
  | nil => rfl
  | cons b l ih =>
    rw [List.getLast?_cons_cons, ih b]
    simp

/-! ### Characterising the record index and the node map -/

/-- Folding `mapSet` over records: the lookup returns the last record with
the requested normalized address, falling back to the accumulator. -/
theorem mapGet_byAddr_fold (l : List TokenInfo) (acc : AList) (k : String) :
    mapGet (l.foldl (fun m t => mapSet m (lower t.address) t) acc) k =
      match (l.filter (fun t => lower t.address = k)).getLast? with
      | some t => some t
      | none => mapGet acc k := by
  induction l generalizing acc with
  | nil => rfl
  | cons t l ih =>
    show mapGet (l.foldl _ (mapSet acc (lower t.address) t)) k = _
    rw [ih]
    by_cases h : lower t.address = k
    · have hf : (t :: l).filter (fun t => lower t.address = k) =
          t :: l.filter (fun t => lower t.address = k) := by
        simp [List.filter_cons, h]
      rw [hf, getLast?_cons_eq]
      cases hl : (l.filter (fun t => lower t.address = k)).getLast? with
      | some u => simp
      | none => simp [mapGet_mapSet, h]
    · have hf : (t :: l).filter (fun t => lower t.address = k) =
          l.filter (fun t => lower t.address = k) := by
        simp [List.filter_cons, h]
      rw [hf]
      cases hl : (l.filter (fun t => lower t.address = k)).getLast? with
      | some u => rfl
      | none => rw [mapGet_mapSet, if_neg (fun hh : k = lower t.address => h hh.symm)]

/-- Lines 99–101: `byAddr.get(k)` is the last input record whose normalized
address is `k`. -/
theorem mapGet_byAddrOf (tokens : List TokenInfo) (k : String) :
    mapGet (byAddrOf tokens) k = (tokens.filter (fun t => lower t.address = k)).getLast? := by
  rw [byAddrOf, mapGet_byAddr_fold]
  cases (tokens.filter (fun t => lower t.address = k)).getLast? <;> rfl

/-- Folding the visibility-guarded `mapSet` over records: the lookup returns
the last record with the requested address when that address is visible. -/
theorem mapGet_nodeMap_fold (vis : List String) (l : List TokenInfo) (acc : AList) (k : String) :
    mapGet (l.foldl (fun m t => if lower t.address ∈ vis then mapSet m (lower t.address) t
        else m) acc) k =
      if k ∈ vis then
        match (l.filter (fun t => lower t.address = k)).getLast? with
        | some t => some t
        | none => mapGet acc k
      else mapGet acc k := by
  induction l generalizing acc with
  | nil =>
    simp only [List.foldl_nil, List.filter_nil, List.getLast?_nil]
    cases hv : (k ∈ vis : Bool) <;> simp_all
  | cons t l ih =>
    show mapGet (l.foldl _ (if lower t.address ∈ vis then mapSet acc (lower t.address) t
        else acc)) k = _
    rw [ih]
    by_cases h : lower t.address = k
    · have hf : (t :: l).filter (fun t => lower t.address = k) =
          t :: l.filter (fun t => lower t.address = k) := by
        simp [List.filter_cons, h]
      rw [hf, getLast?_cons_eq]
      by_cases hv : k ∈ vis
      · have hv' : lower t.address ∈ vis := h ▸ hv
        rw [if_pos hv', if_pos hv, if_pos hv]
        cases hl : (l.filter (fun t => lower t.address = k)).getLast? with
        | some u => simp
        | none => simp [mapGet_mapSet, h]
      · have hv' : lower t.address ∉ vis := h ▸ hv
        rw [if_neg hv', if_neg hv, if_neg hv]
    · have hf : (t :: l).filter (fun t => lower t.address = k) =
          l.filter (fun t => lower t.address = k) := by
        simp [List.filter_cons, h]
      rw [hf]
      by_cases hv : lower t.address ∈ vis
      · rw [if_pos hv]
        by_cases hk : k ∈ vis
        · rw [if_pos hk, if_pos hk]
          cases hl : (l.filter (fun t => lower t.address = k)).getLast? with
          | some u => rfl
          | none => rw [mapGet_mapSet, if_neg (fun hh : k = lower t.address => h hh.symm)]
        · rw [if_neg hk, if_neg hk, mapGet_mapSet,
            if_neg (fun hh : k = lower t.address => h hh.symm)]
      · rw [if_neg hv]

/-- Lines 138–150: the node map holds, at each visible address, the last
record carrying it; nothing at invisible addresses. -/
theorem mapGet_nodeMapOf (tokens : List TokenInfo) (minTvl : ℚ) (k : String) :
    mapGet (nodeMapOf tokens minTvl) k =
      if k ∈ visibleSetOf tokens minTvl then
        (tokens.filter (fun t => lower t.address = k)).getLast?
      else none := by
  rw [nodeMapOf, mapGet_nodeMap_fold]
  by_cases hv : k ∈ visibleSetOf tokens minTvl
  · rw [if_pos hv, if_pos hv]
    cases (tokens.filter (fun t => lower t.address = k)).getLast? <;> rfl
  · rw [if_neg hv, if_neg hv]
    rfl

/-- The keys of the record index are distinct. -/
theorem nodup_keys_byAddrOf (tokens : List TokenInfo) : (keysOf (byAddrOf tokens)).Nodup := by
  rw [byAddrOf]
  suffices h : ∀ acc : AList, (keysOf acc).Nodup →
      (keysOf (tokens.foldl (fun m t => mapSet m (lower t.address) t) acc)).Nodup by
    exact h [] (by simp [keysOf])
  induction tokens with
  | nil => exact fun acc h => h
  | cons t l ih => exact fun acc h => ih _ (nodup_keysOf_mapSet h)

/-- Folding the visibility-guarded `mapSet` preserves key distinctness. -/
theorem nodup_keys_nodeMap_fold (vis : List String) (l : List TokenInfo) :
    ∀ acc : AList, (keysOf acc).Nodup →
      (keysOf (l.foldl (fun m t => if lower t.address ∈ vis then mapSet m (lower t.address) t
        else m) acc)).Nodup := by
  induction l with
  | nil => exact fun acc h => h
  | cons t l ih =>
    intro acc h
    refine ih _ ?_
    show (keysOf (if lower t.address ∈ vis then mapSet acc (lower t.address) t
      else acc)).Nodup
    by_cases hv : lower t.address ∈ vis
    · rw [if_pos hv]; exact nodup_keysOf_mapSet h
    · rwa [if_neg hv]

/-- The keys of the node map are distinct. -/
theorem nodup_keys_nodeMapOf (tokens : List TokenInfo) (minTvl : ℚ) :
    (keysOf (nodeMapOf tokens minTvl)).Nodup := by
  rw [nodeMapOf]
  exact nodup_keys_nodeMap_fold _ tokens [] (by simp [keysOf])

/-! ### Membership in the seed, threshold and visible sets -/

/-- Membership after the seeding fold (lines 110–114). -/
theorem mem_seeds_fold (l : List TokenInfo) (acc : List String) (a : String) :
    a ∈ l.foldl (fun v t => if lower t.quoteToken = zeroAddrL
        then insertAddr v (lower t.address) else v) acc ↔
      a ∈ acc ∨ ∃ t ∈ l, lower t.quoteToken = zeroAddrL ∧ lower t.address = a := by
  induction l generalizing acc with
  | nil => simp
  | cons t l ih =>
    show a ∈ l.foldl _ (if lower t.quoteToken = zeroAddrL
        then insertAddr acc (lower t.address) else acc) ↔ _
    rw [ih]
    by_cases h : lower t.quoteToken = zeroAddrL
    · rw [if_pos h]
      simp only [mem_insertAddr, List.mem_cons]
      constructor
      · rintro ((rfl | ha) | ⟨u, hu, h1, h2⟩)
        · exact Or.inr ⟨t, Or.inl rfl, h, rfl⟩
        · exact Or.inl ha
        · exact Or.inr ⟨u, Or.inr hu, h1, h2⟩
      · rintro (ha | ⟨u, (rfl | hu), h1, h2⟩)
        · exact Or.inl (Or.inr ha)
        · exact Or.inl (Or.inl h2.symm)
        · exact Or.inr ⟨u, hu, h1, h2⟩
    · rw [if_neg h]
      constructor
      · rintro (ha | ⟨u, hu, h1, h2⟩)
        · exact Or.inl ha
        · exact Or.inr ⟨u, List.mem_cons_of_mem _ hu, h1, h2⟩
      · rintro (ha | ⟨u, hu, h1, h2⟩)
        · exact Or.inl ha
        · rcases List.mem_cons.mp hu with rfl | hu
          · exact absurd h1 h
          · exact Or.inr ⟨u, hu, h1, h2⟩

/-- Lines 110–114: an address is seeded exactly when some record with that
normalized address declares the sentinel parent. -/
theorem mem_seedsOf {tokens : List TokenInfo} {a : String} :
    a ∈ seedsOf tokens ↔
      ∃ t ∈ tokens, lower t.quoteToken = zeroAddrL ∧ lower t.address = a := by
  rw [seedsOf, mem_seeds_fold]
  simp

/-- Membership after the threshold fold (lines 120–123). -/
theorem mem_meets_fold (minTvl : ℚ) (l : List TokenInfo) (acc : List String) (a : String) :
    a ∈ l.foldl (fun v t => if minTvl ≤ t.totalSupply
        then insertAddr v (lower t.address) else v) acc ↔
      a ∈ acc ∨ ∃ t ∈ l, minTvl ≤ t.totalSupply ∧ lower t.address = a := by
  induction l generalizing acc with
  | nil => simp
  | cons t l ih =>
    show a ∈ l.foldl _ (if minTvl ≤ t.totalSupply
        then insertAddr acc (lower t.address) else acc) ↔ _
    rw [ih]
    by_cases h : minTvl ≤ t.totalSupply
    · rw [if_pos h]
      simp only [mem_insertAddr, List.mem_cons]
      constructor
      · rintro ((rfl | ha) | ⟨u, hu, h1, h2⟩)
        · exact Or.inr ⟨t, Or.inl rfl, h, rfl⟩
        · exact Or.inl ha
        · exact Or.inr ⟨u, Or.inr hu, h1, h2⟩
      · rintro (ha | ⟨u, (rfl | hu), h1, h2⟩)
        · exact Or.inl (Or.inr ha)
        · exact Or.inl (Or.inl h2.symm)
        · exact Or.inr ⟨u, hu, h1, h2⟩
    · rw [if_neg h]
      constructor
      · rintro (ha | ⟨u, hu, h1, h2⟩)
        · exact Or.inl ha
        · exact Or.inr ⟨u, List.mem_cons_of_mem _ hu, h1, h2⟩
      · rintro (ha | ⟨u, hu, h1, h2⟩)
        · exact Or.inl ha
        · rcases List.mem_cons.mp hu with rfl | hu
          · exact absurd h1 h
          · exact Or.inr ⟨u, hu, h1, h2⟩

/-- Lines 120–123: an address meets the threshold exactly when *some* input
record with that normalized address does. -/
theorem mem_meetsOf {tokens : List TokenInfo} {minTvl : ℚ} {a : String} :
    a ∈ meetsOf tokens minTvl ↔
      ∃ t ∈ tokens, minTvl ≤ t.totalSupply ∧ lower t.address = a := by
  rw [meetsOf, mem_meets_fold]
  simp

/-- Membership after the unconditional fold of line 117. -/
theorem mem_alladd_fold (l : List TokenInfo) (acc : List String) (a : String) :
    a ∈ l.foldl (fun v t => insertAddr v (lower t.address)) acc ↔
      a ∈ acc ∨ ∃ t ∈ l, lower t.address = a := by
  induction l generalizing acc with
  | nil => simp
  | cons t l ih =>
    show a ∈ l.foldl _ (insertAddr acc (lower t.address)) ↔ _
    rw [ih]
    simp only [mem_insertAddr, List.mem_cons]
    constructor
    · rintro ((rfl | ha) | ⟨u, hu, h2⟩)
      · exact Or.inr ⟨t, Or.inl rfl, rfl⟩
      · exact Or.inl ha
      · exact Or.inr ⟨u, Or.inr hu, h2⟩
    · rintro (ha | ⟨u, (rfl | hu), h2⟩)
      · exact Or.inl (Or.inr ha)
      · exact Or.inl (Or.inl h2.symm)
      · exact Or.inr ⟨u, hu, h2⟩

/-- A single walk only grows the visible set. -/
theorem subset_walkF (m : AList) (f : Nat) (v : List String) (cur : String) :
    v ⊆ walkF m f v cur := by
  induction f generalizing v cur with
  | zero => exact fun x hx => hx
  | succ f ih =>
    show v ⊆ (if cur = "" ∨ cur ∈ v then v else _)
    by_cases hstop : cur = "" ∨ cur ∈ v
    · rw [if_pos hstop]
      exact fun x hx => hx
    · rw [if_neg hstop]
      cases hget : mapGet m cur with
      | none => exact List.subset_cons_self _ _
      | some tok =>
        show v ⊆ (if lower tok.quoteToken = zeroAddrL then cur :: v
          else walkF m f (cur :: v) (lower tok.quoteToken))
        by_cases hz : lower tok.quoteToken = zeroAddrL
        · rw [if_pos hz]; exact List.subset_cons_self _ _
        · rw [if_neg hz]
          exact fun x hx => ih _ _ (List.mem_cons_of_mem _ hx)

/-- A single walk only grows the visible set. -/
theorem subset_walk (m : AList) (v : List String) (cur : String) : v ⊆ walk m v cur :=
  subset_walkF m _ v cur

/-- The whole ancestor pass only grows the visible set. -/
theorem subset_walk_foldl (m : AList) (S : List String) :
    ∀ v : List String, v ⊆ S.foldl (fun v s => walk m v s) v := by
  induction S with
  | nil => exact fun v x hx => hx
  | cons s S ih =>
    intro v x hx
    exact ih (walk m v s) (subset_walk m v s hx)

/-- The seeds are contained in the visible set at every threshold. -/
theorem seeds_subset_visible (tokens : List TokenInfo) (minTvl : ℚ) :
    seedsOf tokens ⊆ visibleSetOf tokens minTvl := by
  rw [visibleSetOf]
  by_cases h : minTvl ≤ 0
  · rw [if_pos h]
    intro a ha
    exact (mem_alladd_fold tokens (seedsOf tokens) a).mpr (Or.inl ha)
  · rw [if_neg h]
    exact subset_walk_foldl _ _ _

/-! ### Soundness and completeness of the ancestor walk -/

/-- Chains avoiding a larger initial set also avoid a smaller one. -/
theorem InChain.mono {m : AList} {v0 v1 : List String} {s x : String}
    (hsub : v0 ⊆ v1) (h : InChain m v1 s x) : InChain m v0 s x := by
  induction h with
  | refl s hs hv => exact .refl s hs (fun hh => hv (hsub hh))
  | step s x tok hs hv hget hz _ ih => exact .step s x tok hs (fun hh => hv (hsub hh)) hget hz ih

/-- The start of a chain is not the empty string. -/
theorem InChain.ne_empty {m : AList} {v0 : List String} {s x : String}
    (h : InChain m v0 s x) : s ≠ "" := by
  cases h with
  | refl _ hs _ => exact hs
  | step _ _ _ hs _ _ _ _ => exact hs

/-- Soundness of one walk: everything it adds lies on a `v`-avoiding parent
chain from the start address. -/
theorem walkF_sound {m : AList} :
    ∀ {f : Nat} {v : List String} {cur x : String},
      x ∈ walkF m f v cur → x ∈ v ∨ InChain m v cur x := by
  intro f
  induction f with
  | zero => exact fun h => Or.inl h
  | succ f ih =>
    intro v cur x hx
    rw [show walkF m (f + 1) v cur = if cur = "" ∨ cur ∈ v then v else
        match mapGet m cur with
        | none => cur :: v
        | some tok =>
          if lower tok.quoteToken = zeroAddrL then cur :: v
          else walkF m f (cur :: v) (lower tok.quoteToken) from rfl] at hx
    by_cases hstop : cur = "" ∨ cur ∈ v
    · rw [if_pos hstop] at hx
      exact Or.inl hx
    · rw [if_neg hstop] at hx
      have hcur1 : cur ≠ "" := fun h => hstop (Or.inl h)
      have hcur2 : cur ∉ v := fun h => hstop (Or.inr h)
      cases hget : mapGet m cur with
      | none =>
        rw [hget] at hx
        rcases List.mem_cons.mp hx with rfl | hx
        · exact Or.inr (.refl x hcur1 hcur2)
        · exact Or.inl hx
      | some tok =>
        rw [hget] at hx
        have hx : x ∈ (if lower tok.quoteToken = zeroAddrL then cur :: v
            else walkF m f (cur :: v) (lower tok.quoteToken)) := hx
        by_cases hz : lower tok.quoteToken = zeroAddrL
        · rw [if_pos hz] at hx
          rcases List.mem_cons.mp hx with rfl | hx
          · exact Or.inr (.refl x hcur1 hcur2)
          · exact Or.inl hx
        · rw [if_neg hz] at hx
          rcases ih hx with hx | hx
          · rcases List.mem_cons.mp hx with rfl | hx
            · exact Or.inr (.refl x hcur1 hcur2)
            · exact Or.inl hx
          · exact Or.inr (.step cur x tok hcur1 hcur2 hget hz
              (hx.mono (List.subset_cons_self cur v)))

/-- Soundness of the whole ancestor pass: everything visible at the end was
initially visible or lies on a chain from one of the processed starts. -/
theorem walk_foldl_sound {m : AList} :
    ∀ {S : List String} {v : List String} {x : String},
      x ∈ S.foldl (fun v s => walk m v s) v → x ∈ v ∨ ∃ s ∈ S, InChain m v s x := by
  intro S
  induction S with
  | nil => exact fun h => Or.inl h
  | cons s S ih =>
    intro v x hx
    rcases ih hx with hx | ⟨u, hu, hchain⟩
    · rcases walkF_sound hx with hx | hchain
      · exact Or.inl hx
      · exact Or.inr ⟨s, List.mem_cons_self s S, hchain⟩
    · exact Or.inr ⟨u, List.mem_cons_of_mem _ hu,
        hchain.mono (subset_walk m v s)⟩

/-- A chain-closed set is in particular almost closed for any pending
target. -/
theorem almostClosed_of_chainClosed {m : AList} {v0 v : List String} {c : String}
    (h : chainClosed m v0 v) : almostClosed m v0 v c :=
  fun y hy hy0 tok hget hz hne => Or.inl (h y hy hy0 tok hget hz hne)

/-- Running one walk on an almost-closed set yields a chain-closed set,
provided the iteration budget exceeds the number of invisible keys. -/
theorem chainClosed_walkF {m : AList} {v0 : List String} :
    ∀ {f : Nat} {v : List String} {c : String},
      ((keysOf m).filter (fun k => !(k ∈ v : Bool))).length < f →
      almostClosed m v0 v c → chainClosed m v0 (walkF m f v c) := by
  intro f
  induction f with
  | zero => intro v c hf; omega
  | succ f ih =>
    intro v c hf halmost
    rw [show walkF m (f + 1) v c = if c = "" ∨ c ∈ v then v else
        match mapGet m c with
        | none => c :: v
        | some tok =>
          if lower tok.quoteToken = zeroAddrL then c :: v
          else walkF m f (c :: v) (lower tok.quoteToken) from rfl]
    by_cases hstop : c = "" ∨ c ∈ v
    · rw [if_pos hstop]
      intro y hy hy0 tok hget hz hne
      rcases halmost y hy hy0 tok hget hz hne with hq | hq
      · exact hq
      · rcases hstop with hstop | hstop
        · exact absurd (hq.trans hstop) hne
        · exact hq ▸ hstop
    · rw [if_neg hstop]
      have hc2 : c ∉ v := fun h => hstop (Or.inr h)
      cases hget : mapGet m c with
      | none =>
        intro y hy hy0 tok hget2 hz hne
        rcases List.mem_cons.mp hy with rfl | hy
        · rw [hget] at hget2; cases hget2
        · rcases halmost y hy hy0 tok hget2 hz hne with hq | hq
          · exact List.mem_cons_of_mem _ hq
          · exact hq ▸ List.mem_cons_self _ _
      | some tok =>
        show chainClosed m v0 (if lower tok.quoteToken = zeroAddrL then c :: v
          else walkF m f (c :: v) (lower tok.quoteToken))
        by_cases hz : lower tok.quoteToken = zeroAddrL
        · rw [if_pos hz]
          intro y hy hy0 tok2 hget2 hz2 hne
          rcases List.mem_cons.mp hy with rfl | hy
          · rw [hget] at hget2
            cases hget2
            exact absurd hz hz2
          · rcases halmost y hy hy0 tok2 hget2 hz2 hne with hq | hq
            · exact List.mem_cons_of_mem _ hq
            · exact hq ▸ List.mem_cons_self _ _
        · rw [if_neg hz]
          have hlt := filter_cons_exclusion_lt (keysOf m) v c
            (mapGet_mem_keys hget) hc2
          refine ih (by omega) ?_
          intro y hy hy0 tok2 hget2 hz2 hne
          rcases List.mem_cons.mp hy with rfl | hy
          · rw [hget] at hget2
            cases hget2
            exact Or.inr rfl
          · rcases halmost y hy hy0 tok2 hget2 hz2 hne with hq | hq
            · exact Or.inl (List.mem_cons_of_mem _ hq)
            · exact Or.inl (hq ▸ List.mem_cons_self _ _)

/-- Running one walk on a chain-closed set keeps it chain-closed. -/
theorem chainClosed_walk {m : AList} {v0 v : List String} {c : String}
    (h : chainClosed m v0 v) : chainClosed m v0 (walk m v c) :=
  chainClosed_walkF (by simp [walkBound]) (almostClosed_of_chainClosed h)

/-- The initial seed set is trivially chain-closed relative to itself. -/
theorem chainClosed_refl (m : AList) (v0 : List String) : chainClosed m v0 v0 :=
  fun _ hy hy0 _ _ _ _ => absurd hy hy0

/-- The whole ancestor pass keeps the visible set chain-closed. -/
theorem chainClosed_walk_foldl {m : AList} {v0 : List String} (S : List String) :
    ∀ {v : List String}, chainClosed m v0 v →
      chainClosed m v0 (S.foldl (fun v s => walk m v s) v) := by
  induction S with
  | nil => exact fun h => h
  | cons s S ih => exact fun h => ih (chainClosed_walk h)

/-- Completeness: once a chain start is visible in a chain-closed set, the
whole chain is visible. -/
theorem chainClosed_complete {m : AList} {v0 vF : List String}
    (hclosed : chainClosed m v0 vF) {s x : String}
    (hchain : InChain m v0 s x) (hs : s ∈ vF) : x ∈ vF := by
  induction hchain with
  | refl s _ _ => exact hs
  | step s x tok hne hv0 hget hz hsub ih =>
    refine ih (hclosed s hs hv0 tok hget hz hsub.ne_empty)

/-- A processed non-empty start address ends up visible. -/
theorem mem_walk_self {m : AList} {v : List String} {s : String} (hs : s ≠ "") :
    s ∈ walk m v s := by
  rw [walk, walkBound]
  show s ∈ walkF m (_ + 1) v s
  rw [show walkF m (((keysOf m).filter (fun k => !(k ∈ v : Bool))).length + 1) v s =
      if s = "" ∨ s ∈ v then v else
        match mapGet m s with
        | none => s :: v
        | some tok =>
          if lower tok.quoteToken = zeroAddrL then s :: v
          else walkF m _ (s :: v) (lower tok.quoteToken) from rfl]
  by_cases hstop : s = "" ∨ s ∈ v
  · rw [if_pos hstop]
    rcases hstop with h | h
    · exact absurd h hs
    · exact h
  · rw [if_neg hstop]
    cases mapGet m s with
    | none => exact List.mem_cons_self _ _
    | some tok =>
      show s ∈ (if lower tok.quoteToken = zeroAddrL then s :: v
        else walkF m ((keysOf m).filter (fun k => !(k ∈ v : Bool))).length (s :: v)
          (lower tok.quoteToken))
      by_cases hz : lower tok.quoteToken = zeroAddrL
      · rw [if_pos hz]; exact List.mem_cons_self _ _
      · rw [if_neg hz]
        exact subset_walkF m _ _ _ (List.mem_cons_self _ _)

/-- Every processed non-empty start address is visible after the pass. -/
theorem mem_walk_foldl {m : AList} {S : List String} {s : String}
    (hsS : s ∈ S) (hs : s ≠ "") :
    ∀ v : List String, s ∈ S.foldl (fun v s => walk m v s) v := by
  induction S with
  | nil => cases hsS
  | cons u S ih =>
    intro v
    rcases List.mem_cons.mp hsS with rfl | hsS
    · exact subset_walk_foldl m S _ (mem_walk_self hs)
    · exact ih hsS _

/-! ### Threshold monotonicity of the visible set -/

/-- Raising the threshold only shrinks the visible set (positive-threshold
case). -/
theorem visible_antitone {tokens : List TokenInfo} {t1 t2 : ℚ}
    (h1 : 0 < t1) (h12 : t1 ≤ t2) :
    visibleSetOf tokens t2 ⊆ visibleSetOf tokens t1 := by
  intro x hx
  have ht2 : ¬ t2 ≤ 0 := not_le.mpr (lt_of_lt_of_le h1 h12)
  have ht1 : ¬ t1 ≤ 0 := not_le.mpr h1
  rw [visibleSetOf, if_neg ht2] at hx
  rcases walk_foldl_sound hx with hx | ⟨s, hsmeets, hchain⟩
  · exact seeds_subset_visible tokens t1 hx
  · obtain ⟨u, hu, hle, ha⟩ := mem_meetsOf.mp hsmeets
    have hs1 : s ∈ meetsOf tokens t1 := mem_meetsOf.mpr ⟨u, hu, le_trans h12 hle, ha⟩
    have hsne := hchain.ne_empty
    rw [visibleSetOf, if_neg ht1]
    exact chainClosed_complete
      (chainClosed_walk_foldl (meetsOf tokens t1) (chainClosed_refl _ _)) hchain
      (mem_walk_foldl hs1 hsne _)

/-- A node-map key is a visible address carried by some record. -/
theorem mem_keys_nodeMapOf {tokens : List TokenInfo} {minTvl : ℚ} {k : String} :
    k ∈ keysOf (nodeMapOf tokens minTvl) ↔
      k ∈ visibleSetOf tokens minTvl ∧ ∃ t ∈ tokens, lower t.address = k := by
  rw [← mapGet_isSome_iff, mapGet_nodeMapOf]
  by_cases hv : k ∈ visibleSetOf tokens minTvl
  · rw [if_pos hv]
    rw [List.getLast?_isSome]
    constructor
    · intro hne
      refine ⟨hv, ?_⟩
      rcases List.exists_mem_of_ne_nil _ hne with ⟨u, hu⟩
      have := List.mem_filter.mp hu
      exact ⟨u, this.1, by simpa using this.2⟩
    · rintro ⟨-, u, hu, ha⟩
      intro hnil
      have : u ∈ tokens.filter (fun t => lower t.address = k) :=
        List.mem_filter.mpr ⟨hu, by simpa using ha⟩
      rw [hnil] at this
      cases this
  · rw [if_neg hv]
    simp [hv]

/-- With a non-positive threshold every record address is visible. -/
theorem mem_visible_of_nonpos {tokens : List TokenInfo} {minTvl : ℚ} {k : String}
    (h : minTvl ≤ 0) (ht : ∃ t ∈ tokens, lower t.address = k) :
    k ∈ visibleSetOf tokens minTvl := by
  rw [visibleSetOf, if_pos h, mem_alladd_fold]
  exact Or.inr ht

/-- Raising the threshold only shrinks the node map's key set. -/
theorem keys_nodeMap_antitone {tokens : List TokenInfo} {t1 t2 : ℚ} (h12 : t1 ≤ t2) :
    keysOf (nodeMapOf tokens t2) ⊆ keysOf (nodeMapOf tokens t1) := by
  intro k hk
  obtain ⟨hv, ht⟩ := mem_keys_nodeMapOf.mp hk
  by_cases h1 : t1 ≤ 0
  · exact mem_keys_nodeMapOf.mpr ⟨mem_visible_of_nonpos h1 ht, ht⟩
  · exact mem_keys_nodeMapOf.mpr ⟨visible_antitone (not_le.mp h1) h12 hv, ht⟩

/-- Raising the threshold never raises the node-map size. -/
theorem length_nodeMap_antitone (tokens : List TokenInfo) {t1 t2 : ℚ} (h12 : t1 ≤ t2) :
    (nodeMapOf tokens t2).length ≤ (nodeMapOf tokens t1).length := by
  have h1 : (nodeMapOf tokens t2).length = (keysOf (nodeMapOf tokens t2)).length := by
    simp [keysOf]
  have h2 : (nodeMapOf tokens t1).length = (keysOf (nodeMapOf tokens t1)).length := by
    simp [keysOf]
  rw [h1, h2]
  exact ((nodup_keys_nodeMapOf tokens t2).subperm
    (keys_nodeMap_antitone h12)).length_le

/-- A successful `buildTree` reports `byAddr.size` as `tokenCount` and the
node-map size as `visibleCount`. -/
theorem buildTree_counts {tokens : List TokenInfo} {minTvl : ℚ} {r : BuildResult}
    (h : buildTree tokens minTvl = some r) :
    r.tokenCount = (byAddrOf tokens).length ∧
      r.visibleCount = (nodeMapOf tokens minTvl).length := by
  cases hk : rootKeyOf (nodeMapOf tokens minTvl) with
  | some k =>
    rw [buildTree_genuine hk] at h
    cases hn : buildNode (nodeMapOf tokens minTvl) (tokens.length + 1) k with
    | none => rw [hn] at h; cases h
    | some n =>
      rw [hn] at h
      cases h
      exact ⟨rfl, rfl⟩
  | none =>
    rw [buildTree_synthetic hk] at h
    cases hn : buildForest (nodeMapOf tokens minTvl) (tokens.length + 1)
        (keysOf (nodeMapOf tokens minTvl)) with
    | none => rw [hn] at h; cases h
    | some kids =>
      rw [hn] at h
      cases h
      exact ⟨rfl, rfl⟩

/-- C8: for a fixed record list and thresholds `t1 ≤ t2`, the
`visibleCount` returned at `t2` never exceeds the one returned at `t1` —
raising `minValue` never increases `visibleCount`. -/
theorem C8_threshold_monotonicity (tokens : List TokenInfo) (t1 t2 : ℚ)
    (r1 r2 : BuildResult) (h12 : t1 ≤ t2)
    (h1 : buildTree tokens t1 = some r1) (h2 : buildTree tokens t2 = some r2) :
    r2.visibleCount ≤ r1.visibleCount := by
  rw [(buildTree_counts h1).2, (buildTree_counts h2).2]
  exact length_nodeMap_antitone tokens h12

/-- Witness for C8 at the concrete scenario records with thresholds 0 and
100. -/
theorem C8_witness :
    visibleCountOf (buildTree scenarioTokens 100) ≤
      visibleCountOf (buildTree scenarioTokens 0) := by
  have hs1 : (buildTree scenarioTokens 0).isSome = true := by decide
  have hs2 : (buildTree scenarioTokens 100).isSome = true := by decide
  have h1 : buildTree scenarioTokens 0 = some ((buildTree scenarioTokens 0).get hs1) :=
    (Option.some_get hs1).symm
  have h2 : buildTree scenarioTokens 100 = some ((buildTree scenarioTokens 100).get hs2) :=
    (Option.some_get hs2).symm
  have h := C8_threshold_monotonicity scenarioTokens 0 100 _ _ (by norm_num) h1 h2
  rw [h1, h2]
  exact h

/-! ### The stable sort and the sibling order -/

/-- The comparator is antisymmetric: swapping the arguments negates it. -/
theorem cmpNodes_antisymm (a b : TokenNode) : cmpNodes b a = -(cmpNodes a b) := by
  simp only [cmpNodes]
  rw [abs_sub_comm (subtreeTvl a) (subtreeTvl b)]
  by_cases h : 1/100 < |subtreeTvl b - subtreeTvl a|
  · rw [if_pos h, if_pos h]
    ring
  · rw [if_neg h, if_neg h]
    ring

/-- `a` weakly preceding `b` is the same as `b` not strictly preceding
`a`. -/
theorem cmpNodes_le_total (a b : TokenNode) (h : ¬ cmpNodes a b ≤ 0) : cmpNodes b a ≤ 0 := by
  rw [cmpNodes_antisymm]
  linarith [not_le.mp h]

/-- Inserting into a sorted list keeps adjacent pairs sorted. -/
theorem chain'_insertNode {l : List TokenNode} (a : TokenNode)
    (h : List.Chain' (fun x y => cmpNodes x y ≤ 0) l) :
    List.Chain' (fun x y => cmpNodes x y ≤ 0) (insertNode a l) := by
  induction l with
  | nil => simp [insertNode]
  | cons b bs ih =>
    by_cases hab : cmpNodes a b ≤ 0
    · rw [insertNode, if_pos hab]
      exact h.cons hab
    · rw [insertNode, if_neg hab]
      have hba : cmpNodes b a ≤ 0 := cmpNodes_le_total a b hab
      have htail := ih h.tail
      cases bs with
      | nil =>
        simp only [insertNode]
        exact List.Chain'.cons hba (by simp)
      | cons c cs =>
        by_cases hac : cmpNodes a c ≤ 0
        · rw [insertNode, if_pos hac] at htail ⊢
          exact htail.cons hba
        · rw [insertNode, if_neg hac] at htail ⊢
          exact htail.cons (List.chain'_cons.mp h).1

/-- The insertion sort produces an adjacently sorted list. -/
theorem chain'_isortNodes (l : List TokenNode) :
    List.Chain' (fun x y => cmpNodes x y ≤ 0) (isortNodes l) := by
  induction l with
  | nil => simp [isortNodes]
  | cons a rest ih => exact chain'_insertNode a ih

/-- Insertion is a permutation. -/
theorem perm_insertNode (a : TokenNode) (l : List TokenNode) :
    List.Perm (insertNode a l) (a :: l) := by
  induction l with
  | nil => rfl
  | cons b bs ih =>
    by_cases hab : cmpNodes a b ≤ 0
    · rw [insertNode, if_pos hab]
    · rw [insertNode, if_neg hab]
      exact (ih.cons b).trans (List.Perm.swap a b bs)

/-- The insertion sort is a permutation. -/
theorem perm_isortNodes (l : List TokenNode) : List.Perm (isortNodes l) l := by
  induction l with
  | nil => rfl
  | cons a rest ih => exact (perm_insertNode a (isortNodes rest)).trans (ih.cons a)

/-- `subtreeTvl` over a list is the sum of the members' values. -/
theorem subtreeTvlList_eq_sum (l : List TokenNode) :
    subtreeTvlList l = (l.map subtreeTvl).sum := by
  induction l with
  | nil => rfl
  | cons c cs ih => rw [subtreeTvlList, ih, List.map_cons, List.sum_cons]

/-- `subtreeTvlList` is invariant under permutation. -/
theorem subtreeTvlList_perm {l l' : List TokenNode} (h : List.Perm l l') :
    subtreeTvlList l = subtreeTvlList l' := by
  rw [subtreeTvlList_eq_sum, subtreeTvlList_eq_sum]
  exact (h.map subtreeTvl).sum_eq

/-- `countDescendantsList` over a list is the sum of the members' counts. -/
theorem countDescendantsList_eq_sum (l : List TokenNode) :
    countDescendantsList l = (l.map countDescendants).sum := by
  induction l with
  | nil => rfl
  | cons c cs ih => rw [countDescendantsList, ih, List.map_cons, List.sum_cons]

/-- `countDescendantsList` is invariant under permutation. -/
theorem countDescendantsList_perm {l l' : List TokenNode} (h : List.Perm l l') :
    countDescendantsList l = countDescendantsList l' := by
  rw [countDescendantsList_eq_sum, countDescendantsList_eq_sum]
  exact (h.map countDescendants).sum_eq

/-- The forest sort is just the element-wise sort. -/
theorem sortForest_eq_map (l : List TokenNode) : sortForest l = l.map sortTree := by
  induction l with
  | nil => rfl
  | cons k ks ih => rw [sortForest, ih, List.map_cons]

mutual
/-- Sorting does not change a subtree's value sum. -/
theorem subtreeTvl_sortTree : ∀ n : TokenNode, subtreeTvl (sortTree n) = subtreeTvl n
  | .mk a nm sy c q ts kids => by
    show ts + subtreeTvlList (isortNodes (sortForest kids)) = ts + subtreeTvlList kids
    rw [subtreeTvlList_perm (perm_isortNodes (sortForest kids)),
      subtreeTvlList_sortForest kids]
/-- Sorting does not change a forest's value sum. -/
theorem subtreeTvlList_sortForest :
    ∀ l : List TokenNode, subtreeTvlList (sortForest l) = subtreeTvlList l
  | [] => rfl
  | k :: ks => by
    show subtreeTvl (sortTree k) + subtreeTvlList (sortForest ks) = _
    rw [subtreeTvl_sortTree k, subtreeTvlList_sortForest ks]
    rfl
end

mutual
/-- Sorting does not change a subtree's node count. -/
theorem countDescendants_sortTree :
    ∀ n : TokenNode, countDescendants (sortTree n) = countDescendants n
  | .mk a nm sy c q ts kids => by
    show 1 + countDescendantsList (isortNodes (sortForest kids)) =
      1 + countDescendantsList kids
    rw [countDescendantsList_perm (perm_isortNodes (sortForest kids)),
      countDescendantsList_sortForest kids]
/-- Sorting does not change a forest's node count. -/
theorem countDescendantsList_sortForest :
    ∀ l : List TokenNode, countDescendantsList (sortForest l) = countDescendantsList l
  | [] => rfl
  | k :: ks => by
    show countDescendants (sortTree k) + countDescendantsList (sortForest ks) = _
    rw [countDescendants_sortTree k, countDescendantsList_sortForest ks]
    rfl
end

/-- Sorting the arguments does not change the comparator. -/
theorem cmpNodes_sortTree (a b : TokenNode) :
    cmpNodes (sortTree a) (sortTree b) = cmpNodes a b := by
  simp only [cmpNodes]
  rw [subtreeTvl_sortTree, subtreeTvl_sortTree, countDescendants_sortTree,
    countDescendants_sortTree]

/-- The sibling relation is exactly "the comparator does not favour
swapping". -/
theorem childLE_iff (a b : TokenNode) : childLE a b ↔ cmpNodes a b ≤ 0 := by
  simp only [childLE, cmpNodes]
  rw [abs_sub_comm (subtreeTvl b) (subtreeTvl a)]
  by_cases h : 1/100 < |subtreeTvl a - subtreeTvl b|
  · rw [if_pos h, if_pos h]
    constructor
    · intro hlt; linarith
    · intro hle
      rcases lt_or_eq_of_le (sub_nonpos.mp hle) with hlt | heq
      · exact hlt
      · rw [heq] at h
        simp at h
        linarith
  · rw [if_neg h, if_neg h]
    constructor
    · intro hle
      have := sub_nonpos.mpr (Nat.cast_le (α := ℚ) |>.mpr hle)
      exact this
    · intro hle
      exact_mod_cast Nat.cast_le (α := ℚ) |>.mp (sub_nonpos.mp hle)

/-! ### Sortedness of every children array in the output -/

/-- Unfolding `allNodes` at the root. -/
theorem allNodes_eq (n : TokenNode) : allNodes n = n :: allNodesList n.children := by
  cases n
  rfl

/-- Every tree contains its own root. -/
theorem mem_allNodes_self (n : TokenNode) : n ∈ allNodes n := by
  rw [allNodes_eq]
  exact List.mem_cons_self _ _

/-- Membership in the nodes of a forest. -/
theorem mem_allNodesList {l : List TokenNode} {x : TokenNode} :
    x ∈ allNodesList l ↔ ∃ c ∈ l, x ∈ allNodes c := by
  induction l with
  | nil => simp [allNodesList]
  | cons k ks ih =>
    rw [allNodesList, List.mem_append, ih]
    constructor
    · rintro (hx | ⟨c, hc, hx⟩)
      · exact ⟨k, List.mem_cons_self _ _, hx⟩
      · exact ⟨c, List.mem_cons_of_mem _ hc, hx⟩
    · rintro ⟨c, hc, hx⟩
      rcases List.mem_cons.mp hc with rfl | hc
      · exact Or.inl hx
      · exact Or.inr ⟨c, hc, hx⟩

mutual
/-- After sorting, every node of the tree has adjacently sorted children. -/
theorem sortTree_sorted : ∀ n : TokenNode, ∀ x ∈ allNodes (sortTree n),
    List.Chain' (fun a b => cmpNodes a b ≤ 0) x.children
  | .mk a nm sy c q ts kids => by
    intro x hx
    rw [allNodes_eq] at hx
    rcases List.mem_cons.mp hx with rfl | hx
    · exact chain'_isortNodes (sortForest kids)
    · have hx3 : x ∈ allNodesList (isortNodes (sortForest kids)) := hx
      rcases mem_allNodesList.mp hx3 with ⟨c2, hc2, hxc⟩
      exact sortForest_sorted kids x
        (mem_allNodesList.mpr ⟨c2, (perm_isortNodes (sortForest kids)).subset hc2, hxc⟩)
/-- After sorting, every node of the forest has adjacently sorted
children. -/
theorem sortForest_sorted : ∀ l : List TokenNode, ∀ x ∈ allNodesList (sortForest l),
    List.Chain' (fun a b => cmpNodes a b ≤ 0) x.children
  | [] => by intro x hx; cases hx
  | k :: ks => by
    intro x hx
    rw [show sortForest (k :: ks) = sortTree k :: sortForest ks from rfl,
      allNodesList] at hx
    rcases List.mem_append.mp hx with hx | hx
    · exact sortTree_sorted k x hx
    · exact sortForest_sorted ks x hx
end

/-- The root of every successful build is a sorted tree. -/
theorem buildTree_root_sortTree {tokens : List TokenInfo} {minTvl : ℚ} {r : BuildResult}
    (h : buildTree tokens minTvl = some r) : ∃ n0, r.root = sortTree n0 := by
  cases hk : rootKeyOf (nodeMapOf tokens minTvl) with
  | some k =>
    rw [buildTree_genuine hk] at h
    cases hn : buildNode (nodeMapOf tokens minTvl) (tokens.length + 1) k with
    | none => rw [hn] at h; cases h
    | some n =>
      rw [hn] at h
      cases h
      exact ⟨n, rfl⟩
  | none =>
    rw [buildTree_synthetic hk] at h
    cases hn : buildForest (nodeMapOf tokens minTvl) (tokens.length + 1)
        (keysOf (nodeMapOf tokens minTvl)) with
    | none => rw [hn] at h; cases h
    | some kids =>
      rw [hn] at h
      cases h
      exact ⟨_, rfl⟩

/-- C2: in every tree returned by `buildTree`, the children of every node,
at every level, are sorted adjacently by descending subtree value sum, with
the descendant-count tie-break applying whenever the two sums differ by at
most `0.01` in magnitude. -/
theorem C2_children_sorted (tokens : List TokenInfo) (minTvl : ℚ) (r : BuildResult)
    (h : buildTree tokens minTvl = some r) :
    ∀ x ∈ allNodes r.root, List.Chain' childLE x.children := by
  obtain ⟨n0, hroot⟩ := buildTree_root_sortTree h
  intro x hx
  rw [hroot] at hx
  exact (sortTree_sorted n0 x hx).imp (fun a b hab => (childLE_iff a b).mpr hab)

/-- Witness for C2 at the scenario records: the root's children list of the
built tree is sorted. -/
theorem C2_witness : List.Chain' childLE (rootOf (buildTree scenarioTokens 0)).children := by
  have hs : (buildTree scenarioTokens 0).isSome = true := by decide
  have hr : buildTree scenarioTokens 0 = some ((buildTree scenarioTokens 0).get hs) :=
    (Option.some_get hs).symm
  have h := C2_children_sorted scenarioTokens 0 _ hr
    ((buildTree scenarioTokens 0).get hs).root (mem_allNodes_self _)
  rw [hr]
  exact h

/-! ### The model satisfies the literal recurrence of `sortChildren` -/

/-- Sorting commutes with inserting through `sortTree` because the
comparator is invariant under sorting. -/
theorem insertNode_map_sortTree (a : TokenNode) (l : List TokenNode) :
    insertNode (sortTree a) (l.map sortTree) = (insertNode a l).map sortTree := by
  induction l with
  | nil => rfl
  | cons b bs ih =>
    rw [List.map_cons, insertNode, insertNode, cmpNodes_sortTree]
    by_cases h : cmpNodes a b ≤ 0
    · rw [if_pos h, if_pos h, List.map_cons, List.map_cons]
    · rw [if_neg h, if_neg h, List.map_cons, ih]

/-- The stable sort commutes with `sortTree` applied element-wise. -/
theorem isortNodes_map_sortTree (l : List TokenNode) :
    isortNodes (l.map sortTree) = (isortNodes l).map sortTree := by
  induction l with
  | nil => rfl
  | cons a rest ih =>
    rw [List.map_cons, isortNodes, isortNodes, ih, insertNode_map_sortTree]

/-- `sortTree` satisfies the literal top-down recurrence of `sortChildren`
(lines 176–185): sort this node's children array, then recurse into each
child.  Together with totality this pins the model to the source. -/
theorem sortTree_srcEq (a n s c q : String) (ts : ℚ) (kids : List TokenNode) :
    sortTree (TokenNode.mk a n s c q ts kids) =
      TokenNode.mk a n s c q ts (sortForest (isortNodes kids)) := by
  show TokenNode.mk a n s c q ts (isortNodes (sortForest kids)) = _
  rw [sortForest_eq_map, sortForest_eq_map, isortNodes_map_sortTree]

/-! ### Structure of the materialised trees -/

/-- `buildLevel` builds one node per key, in order. -/
theorem buildLevel_forall₂ {rec : String → Option TokenNode} {Φ : String → TokenNode → Prop}
    (hrec : ∀ k n, rec k = some n → Φ k n) :
    ∀ {ks : List String} {ns : List TokenNode}, buildLevel rec ks = some ns →
      List.Forall₂ Φ ks ns := by
  intro ks
  induction ks with
  | nil =>
    intro ns h
    cases h
    exact List.Forall₂.nil
  | cons k ks ih =>
    intro ns h
    rw [buildLevel] at h
    cases hn : rec k with
    | none => rw [hn] at h; cases h
    | some n =>
      rw [hn] at h
      cases hns : buildLevel rec ks with
      | none => rw [hns] at h; cases h
      | some rest =>
        rw [hns] at h
        cases h
        exact List.Forall₂.cons (hrec k n hn) (ih hns)

/-- Right members of a `Forall₂` have related left partners. -/
theorem forall₂_mem_right {α β : Type} {R : α → β → Prop} :
    ∀ {l1 : List α} {l2 : List β}, List.Forall₂ R l1 l2 → ∀ {b}, b ∈ l2 →
      ∃ a ∈ l1, R a b := by
  intro l1 l2 h
  induction h with
  | nil => intro b hb; cases hb
  | cons hR hrest ih =>
    intro b hb
    rcases List.mem_cons.mp hb with rfl | hb
    · exact ⟨_, List.mem_cons_self _ _, hR⟩
    · obtain ⟨a, ha, hab⟩ := ih hb
      exact ⟨a, List.mem_cons_of_mem _ ha, hab⟩

/-- A child key comes with a witnessing entry whose parent key is `p`. -/
theorem mem_childKeys {m : AList} {p k : String} (h : k ∈ childKeys m p) :
    p ≠ zeroAddrL ∧ ∃ t, (k, t) ∈ m ∧ lower t.quoteToken = p := by
  rw [childKeys] at h
  by_cases hz : p = zeroAddrL
  · rw [if_pos hz] at h
    cases h
  · rw [if_neg hz] at h
    refine ⟨hz, ?_⟩
    rcases List.mem_map.mp h with ⟨kt, hkt, hfst⟩
    have := List.mem_filter.mp hkt
    exact ⟨kt.2, by rw [← hfst]; exact this.1, by simpa using this.2⟩

/-- Membership in `mapSet`. -/
theorem mem_mapSet {m : AList} {k : String} {v : TokenInfo} {q : String × TokenInfo}
    (h : q ∈ mapSet m k v) : q = (k, v) ∨ q ∈ m := by
  induction m with
  | nil => simpa [mapSet] using h
  | cons p ps ih =>
    by_cases hp : p.1 = k
    · rw [mapSet, if_pos hp] at h
      rcases List.mem_cons.mp h with rfl | h
      · exact Or.inl rfl
      · exact Or.inr (List.mem_cons_of_mem _ h)
    · rw [mapSet, if_neg hp] at h
      rcases List.mem_cons.mp h with rfl | h
      · exact Or.inr (List.mem_cons_self _ _)
      · rcases ih h with h | h
        · exact Or.inl h
        · exact Or.inr (List.mem_cons_of_mem _ h)

/-- `mapSet` with a matching key preserves the key invariant. -/
theorem KeyInv_mapSet {m : AList} {k : String} {v : TokenInfo}
    (h : KeyInv m) (hv : lower v.address = k) : KeyInv (mapSet m k v) := by
  intro kt hkt
  rcases mem_mapSet hkt with rfl | hkt
  · exact hv
  · exact h kt hkt

/-- The node map is keyed by normalized addresses. -/
theorem KeyInv_nodeMapOf (tokens : List TokenInfo) (minTvl : ℚ) :
    KeyInv (nodeMapOf tokens minTvl) := by
  rw [nodeMapOf]
  suffices hgen : ∀ (vis : List String) (l : List TokenInfo) (acc : AList), KeyInv acc →
      KeyInv (l.foldl (fun m t => if lower t.address ∈ vis then mapSet m (lower t.address) t
        else m) acc) by
    exact hgen _ tokens [] (fun kt hkt => by cases hkt)
  intro vis l
  induction l with
  | nil => exact fun acc h => h
  | cons t l ih =>
    intro acc h
    refine ih _ ?_
    show KeyInv (if lower t.address ∈ vis then mapSet acc (lower t.address) t else acc)
    by_cases hv : lower t.address ∈ vis
    · rw [if_pos hv]
      exact KeyInv_mapSet h rfl
    · rwa [if_neg hv]

/-- With distinct keys, list membership determines the lookup. -/
theorem mapGet_of_mem_nodup {m : AList} {k : String} {t : TokenInfo}
    (hnod : (keysOf m).Nodup) (h : (k, t) ∈ m) : mapGet m k = some t := by
  induction m with
  | nil => cases h
  | cons p ps ih =>
    obtain ⟨p1, p2⟩ := p
    rw [keysOf, List.map_cons, List.nodup_cons] at hnod
    rw [mapGet_cons]
    rcases List.mem_cons.mp h with heq | h
    · cases heq
      rw [if_pos rfl]
    · have hk : p1 ≠ k := by
        intro he
        subst he
        exact hnod.1 (List.mem_map.mpr ⟨(p1, t), h, rfl⟩)
      rw [if_neg hk]
      exact ih (by simpa [keysOf] using hnod.2) h

/-- Unfolding `parentPairs` at a node. -/
theorem parentPairs_eq (a n s c q : String) (ts : ℚ) (kids : List TokenNode) :
    parentPairs (TokenNode.mk a n s c q ts kids) =
      kids.map (fun k => (TokenNode.mk a n s c q ts kids, k)) ++ parentPairsList kids := rfl

/-- Membership in the pairs of a forest. -/
theorem mem_parentPairsList {l : List TokenNode} {pc : TokenNode × TokenNode} :
    pc ∈ parentPairsList l ↔ ∃ c ∈ l, pc ∈ parentPairs c := by
  induction l with
  | nil => simp [parentPairsList]
  | cons k ks ih =>
    rw [parentPairsList, List.mem_append, ih]
    constructor
    · rintro (hx | ⟨c, hc, hx⟩)
      · exact ⟨k, List.mem_cons_self _ _, hx⟩
      · exact ⟨c, List.mem_cons_of_mem _ hc, hx⟩
    · rintro ⟨c, hc, hx⟩
      rcases List.mem_cons.mp hc with rfl | hc
      · exact Or.inl hx
      · exact Or.inr ⟨c, hc, hx⟩

/-- The record fields carried by a successfully materialised node, plus the
parent/child well-formedness of the whole subtree. -/
theorem buildNode_good {m : AList} (hKey : KeyInv m) (hNod : (keysOf m).Nodup) :
    ∀ (f : Nat) (k : String) (n : TokenNode), buildNode m f k = some n →
      (∃ t, mapGet m k = some t ∧ n.address = t.address ∧ n.name = t.name ∧
        n.symbol = t.symbol ∧ n.currency = t.currency ∧ n.quoteToken = t.quoteToken ∧
        n.totalSupply = t.totalSupply ∧ lower n.address = k) ∧
      GoodPairs n := by
  intro f
  induction f with
  | zero => intro k n h; cases h
  | succ f ih =>
    intro k n h
    rw [buildNode] at h
    cases hget : mapGet m k with
    | none => rw [hget] at h; cases h
    | some t =>
      rw [hget] at h
      cases hkids : buildLevel (buildNode m f) (childKeys m k) with
      | none => rw [hkids] at h; cases h
      | some kids =>
        rw [hkids] at h
        cases h
        have hkeyk : lower t.address = k := hKey (k, t) (mem_of_mapGet hget)
        have hall := buildLevel_forall₂ (fun k' n' h' => ih k' n' h') hkids
        constructor
        · exact ⟨t, rfl, rfl, rfl, rfl, rfl, rfl, rfl, hkeyk⟩
        · intro pc hpc
          rw [show mkNode t kids = TokenNode.mk t.address t.name t.symbol t.currency
              t.quoteToken t.totalSupply kids from rfl, parentPairs_eq,
            List.mem_append] at hpc
          rcases hpc with hpc | hpc
          · rcases List.mem_map.mp hpc with ⟨c, hc, rfl⟩
            obtain ⟨k', hk', hΦ⟩ := forall₂_mem_right hall hc
            obtain ⟨hz, t', hmem, hqt⟩ := mem_childKeys hk'
            obtain ⟨⟨t2, hget2, _, _, _, _, hqt2, _, _⟩, _⟩ := hΦ
            have ht2 : t' = t2 := by
              have := mapGet_of_mem_nodup hNod hmem
              rw [this] at hget2
              cases hget2
              rfl
            constructor
            · show lower t.address = lower c.quoteToken
              rw [hkeyk, hqt2, ← ht2, hqt]
            · show lower c.quoteToken ≠ zeroAddrL
              rw [hqt2, ← ht2, hqt]
              exact hz
          · rcases mem_parentPairsList.mp hpc with ⟨c, hc, hin⟩
            obtain ⟨k', hk', hΦ⟩ := forall₂_mem_right hall hc
            exact hΦ.2 pc hin

/-- Sorting preserves every head field. -/
theorem sortTree_address (n : TokenNode) : (sortTree n).address = n.address := by
  cases n; rfl

/-- Sorting preserves every head field. -/
theorem sortTree_quoteToken (n : TokenNode) : (sortTree n).quoteToken = n.quoteToken := by
  cases n; rfl

mutual
/-- Every pair of a sorted tree has a counterpart in the unsorted tree with
the same parent address and child parent-declaration. -/
theorem parentPairs_sortTree_sub : ∀ (n : TokenNode) (pc : TokenNode × TokenNode),
    pc ∈ parentPairs (sortTree n) → ∃ qc ∈ parentPairs n,
      pc.1.address = qc.1.address ∧ pc.2.quoteToken = qc.2.quoteToken
  | .mk a nm sy c q ts kids => by
    intro pc hpc
    rw [show sortTree (TokenNode.mk a nm sy c q ts kids) =
        TokenNode.mk a nm sy c q ts (isortNodes (sortForest kids)) from rfl,
      parentPairs_eq, List.mem_append] at hpc
    rcases hpc with hpc | hpc
    · rcases List.mem_map.mp hpc with ⟨c2, hc2, rfl⟩
      have hc3 : c2 ∈ sortForest kids := (perm_isortNodes (sortForest kids)).subset hc2
      rw [sortForest_eq_map] at hc3
      rcases List.mem_map.mp hc3 with ⟨k0, hk0, rfl⟩
      refine ⟨(TokenNode.mk a nm sy c q ts kids, k0), ?_, rfl, sortTree_quoteToken k0⟩
      rw [parentPairs_eq, List.mem_append]
      exact Or.inl (List.mem_map.mpr ⟨k0, hk0, rfl⟩)
    · rcases mem_parentPairsList.mp hpc with ⟨c2, hc2, hin⟩
      have hc3 : c2 ∈ sortForest kids := (perm_isortNodes (sortForest kids)).subset hc2
      have hpc2 : pc ∈ parentPairsList (sortForest kids) :=
        mem_parentPairsList.mpr ⟨c2, hc3, hin⟩
      obtain ⟨qc, hqc, hfields⟩ := parentPairsList_sortForest_sub kids pc hpc2
      refine ⟨qc, ?_, hfields⟩
      rw [parentPairs_eq, List.mem_append]
      exact Or.inr hqc
/-- Forest version of `parentPairs_sortTree_sub`. -/
theorem parentPairsList_sortForest_sub :
    ∀ (l : List TokenNode) (pc : TokenNode × TokenNode),
      pc ∈ parentPairsList (sortForest l) → ∃ qc ∈ parentPairsList l,
        pc.1.address = qc.1.address ∧ pc.2.quoteToken = qc.2.quoteToken
  | [] => by intro pc hpc; cases hpc
  | k :: ks => by
    intro pc hpc
    rw [show sortForest (k :: ks) = sortTree k :: sortForest ks from rfl,
      parentPairsList, List.mem_append] at hpc
    rcases hpc with hpc | hpc
    · obtain ⟨qc, hqc, hfields⟩ := parentPairs_sortTree_sub k pc hpc
      exact ⟨qc, by rw [parentPairsList, List.mem_append]; exact Or.inl hqc, hfields⟩
    · obtain ⟨qc, hqc, hfields⟩ := parentPairsList_sortForest_sub ks pc hpc
      exact ⟨qc, by rw [parentPairsList, List.mem_append]; exact Or.inr hqc, hfields⟩
end

/-- Sorting preserves the parent/child well-formedness of a tree. -/
theorem goodPairs_sortTree {n : TokenNode} (h : GoodPairs n) : GoodPairs (sortTree n) := by
  intro pc hpc
  obtain ⟨qc, hqc, ha, hq⟩ := parentPairs_sortTree_sub n pc hpc
  rw [ha, hq]
  exact h qc hqc

mutual
/-- Every proper node of a tree occurs as the child of some pair. -/
theorem pair_of_mem_children : ∀ (n : TokenNode) (x : TokenNode),
    x ∈ allNodesList n.children → ∃ p, (p, x) ∈ parentPairs n
  | .mk a nm sy c q ts kids => by
    intro x hx
    have hx2 : x ∈ allNodesList kids := hx
    rcases pair_of_mem_forest kids x hx2 with hmem | ⟨p, hp⟩
    · refine ⟨TokenNode.mk a nm sy c q ts kids, ?_⟩
      rw [parentPairs_eq, List.mem_append]
      exact Or.inl (List.mem_map.mpr ⟨x, hmem, rfl⟩)
    · refine ⟨p, ?_⟩
      rw [parentPairs_eq, List.mem_append]
      exact Or.inr hp
/-- Forest version: a node of a forest is a member of the top level or a
pair child somewhere below. -/
theorem pair_of_mem_forest : ∀ (l : List TokenNode) (x : TokenNode),
    x ∈ allNodesList l → x ∈ l ∨ ∃ p, (p, x) ∈ parentPairsList l
  | [] => by intro x hx; cases hx
  | k :: ks => by
    intro x hx
    rw [show allNodesList (k :: ks) = allNodes k ++ allNodesList ks from rfl,
      List.mem_append] at hx
    rcases hx with hx | hx
    · rw [allNodes_eq] at hx
      rcases List.mem_cons.mp hx with rfl | hx
      · exact Or.inl (List.mem_cons_self _ _)
      · rcases pair_of_mem_children k x hx with ⟨p, hp⟩
        refine Or.inr ⟨p, ?_⟩
        rw [show parentPairsList (k :: ks) = parentPairs k ++ parentPairsList ks from rfl,
          List.mem_append]
        exact Or.inl hp
    · rcases pair_of_mem_forest ks x hx with hmem | ⟨p, hp⟩
      · exact Or.inl (List.mem_cons_of_mem _ hmem)
      · refine Or.inr ⟨p, ?_⟩
        rw [show parentPairsList (k :: ks) = parentPairs k ++ parentPairsList ks from rfl,
          List.mem_append]
        exact Or.inr hp
end

mutual
/-- The parent of every pair is a node of the tree. -/
theorem pair_parent_mem : ∀ (n : TokenNode) (p c : TokenNode),
    (p, c) ∈ parentPairs n → p ∈ allNodes n
  | .mk a nm sy cu q ts kids => by
    intro p c hp
    rw [parentPairs_eq, List.mem_append] at hp
    rcases hp with hp | hp
    · rcases List.mem_map.mp hp with ⟨k0, hk0, heq⟩
      obtain ⟨h1, h2⟩ := Prod.mk.injEq .. ▸ heq
      rw [← h1]
      exact mem_allNodes_self _
    · have := pair_parent_mem_forest kids p c hp
      rw [allNodes_eq]
      exact List.mem_cons_of_mem _ this
/-- Forest version of `pair_parent_mem`. -/
theorem pair_parent_mem_forest : ∀ (l : List TokenNode) (p c : TokenNode),
    (p, c) ∈ parentPairsList l → p ∈ allNodesList l
  | [] => by intro p c hp; cases hp
  | k :: ks => by
    intro p c hp
    rw [show parentPairsList (k :: ks) = parentPairs k ++ parentPairsList ks from rfl,
      List.mem_append] at hp
    rw [show allNodesList (k :: ks) = allNodes k ++ allNodesList ks from rfl,
      List.mem_append]
    rcases hp with hp | hp
    · exact Or.inl (pair_parent_mem k p c hp)
    · exact Or.inr (pair_parent_mem_forest ks p c hp)
end

/-! ### The root key is the last sentinel entry -/

/-- Folding the root-selection step: the last sentinel-parented entry
wins. -/
theorem rootKeyOf_fold (m : AList) : ∀ acc : Option String,
    m.foldl (fun r kt => if lower kt.2.quoteToken = zeroAddrL then some kt.1 else r) acc =
      match (m.filter (fun kt => lower kt.2.quoteToken = zeroAddrL)).getLast? with
      | some kt => some kt.1
      | none => acc := by
  induction m with
  | nil => intro acc; rfl
  | cons kt m ih =>
    intro acc
    show m.foldl _ (if lower kt.2.quoteToken = zeroAddrL then some kt.1 else acc) = _
    rw [ih]
    by_cases h : lower kt.2.quoteToken = zeroAddrL
    · have hf : (kt :: m).filter (fun kt => lower kt.2.quoteToken = zeroAddrL) =
          kt :: m.filter (fun kt => lower kt.2.quoteToken = zeroAddrL) := by
        simp [List.filter_cons, h]
      rw [hf, getLast?_cons_eq, if_pos h]
      cases hl : (m.filter (fun kt => lower kt.2.quoteToken = zeroAddrL)).getLast? with
      | some u => simp
      | none => simp
    · have hf : (kt :: m).filter (fun kt => lower kt.2.quoteToken = zeroAddrL) =
          m.filter (fun kt => lower kt.2.quoteToken = zeroAddrL) := by
        simp [List.filter_cons, h]
      rw [hf, if_neg h]

/-- Lines 152–161: the selected root key is the key of the *last*
sentinel-parented node-map entry. -/
theorem rootKeyOf_eq (m : AList) :
    rootKeyOf m =
      ((m.filter (fun kt => lower kt.2.quoteToken = zeroAddrL)).getLast?).map Prod.fst := by
  rw [rootKeyOf, rootKeyOf_fold]
  cases (m.filter (fun kt => lower kt.2.quoteToken = zeroAddrL)).getLast? <;> rfl

/-! ### Amended structural claims -/

/-- C4 (amended): when sentinel-parent records are visible, the *last*
sentinel-parented node-map entry becomes the root, and no sentinel-parented
node is attached anywhere below the root. -/
theorem C4_last_sentinel_root (tokens : List TokenInfo) (minTvl : ℚ) (r : BuildResult)
    (kt : String × TokenInfo) (h : buildTree tokens minTvl = some r)
    (hlast : ((nodeMapOf tokens minTvl).filter
        (fun kt => lower kt.2.quoteToken = zeroAddrL)).getLast? = some kt) :
    lower r.root.address = kt.1 ∧
      ∀ n ∈ properNodes r.root, lower n.quoteToken ≠ zeroAddrL := by
  have hk : rootKeyOf (nodeMapOf tokens minTvl) = some kt.1 := by
    rw [rootKeyOf_eq, hlast]
    rfl
  rw [buildTree_genuine hk] at h
  cases hn : buildNode (nodeMapOf tokens minTvl) (tokens.length + 1) kt.1 with
  | none => rw [hn] at h; cases h
  | some n0 =>
    rw [hn] at h
    cases h
    obtain ⟨⟨t, hget, _, _, _, _, _, _, haddr⟩, hgood⟩ :=
      buildNode_good (KeyInv_nodeMapOf tokens minTvl) (nodup_keys_nodeMapOf tokens minTvl)
        (tokens.length + 1) kt.1 n0 hn
    constructor
    · show lower (sortTree n0).address = kt.1
      rw [sortTree_address]
      exact haddr
    · intro n hn2
      obtain ⟨p, hp⟩ := pair_of_mem_children (sortTree n0) n hn2
      exact (goodPairs_sortTree hgood (p, n) hp).2

/-- Witness for the amended C4 at two sentinel records: the root is `R2`,
the last one. -/
theorem C4_witness : lower (rootOf (buildTree twoRootTokens 0)).address = "r2" := by
  have hs : (buildTree twoRootTokens 0).isSome = true := by decide
  have hr : buildTree twoRootTokens 0 = some ((buildTree twoRootTokens 0).get hs) :=
    (Option.some_get hs).symm
  have hlast : ((nodeMapOf twoRootTokens 0).filter
      (fun kt => lower kt.2.quoteToken = zeroAddrL)).getLast? = some ("r2", exR2) := by
    decide
  have h := C4_last_sentinel_root twoRootTokens 0 _ ("r2", exR2) hr hlast
  rw [hr]
  exact h.1

/-- C1 (amended): whenever the returned root is a genuine record (some
visible record declares the sentinel parent), every non-root node of the
output tree hangs under a node of the tree whose address is exactly the
child's declared parent — no node whose parent was filtered out appears. -/
theorem C1_parent_present (tokens : List TokenInfo) (minTvl : ℚ) (r : BuildResult)
    (k : String) (h : buildTree tokens minTvl = some r)
    (hk : rootKeyOf (nodeMapOf tokens minTvl) = some k) :
    ∀ n ∈ properNodes r.root, ∃ p, p ∈ allNodes r.root ∧ (p, n) ∈ parentPairs r.root ∧
      lower p.address = lower n.quoteToken := by
  rw [buildTree_genuine hk] at h
  cases hn : buildNode (nodeMapOf tokens minTvl) (tokens.length + 1) k with
  | none => rw [hn] at h; cases h
  | some n0 =>
    rw [hn] at h
    cases h
    obtain ⟨-, hgood⟩ :=
      buildNode_good (KeyInv_nodeMapOf tokens minTvl) (nodup_keys_nodeMapOf tokens minTvl)
        (tokens.length + 1) k n0 hn
    intro n hn2
    obtain ⟨p, hp⟩ := pair_of_mem_children (sortTree n0) n hn2
    exact ⟨p, pair_parent_mem (sortTree n0) p n hp, hp,
      (goodPairs_sortTree hgood (p, n) hp).1⟩

/-- Witness for the amended C1 at the scenario records: the `A` node under
the root has its declared parent present. -/
theorem C1_witness :
    ∃ p, p ∈ allNodes (rootOf (buildTree scenarioTokens 0)) ∧
      (p, (rootOf (buildTree scenarioTokens 0)).children.getD 0
        (TokenNode.mk "" "" "" "" "" 0 [])) ∈ parentPairs (rootOf (buildTree scenarioTokens 0)) ∧
      lower p.address =
        lower ((rootOf (buildTree scenarioTokens 0)).children.getD 0
          (TokenNode.mk "" "" "" "" "" 0 [])).quoteToken := by
  have hs : (buildTree scenarioTokens 0).isSome = true := by decide
  have hr : buildTree scenarioTokens 0 = some ((buildTree scenarioTokens 0).get hs) :=
    (Option.some_get hs).symm
  have hk : rootKeyOf (nodeMapOf scenarioTokens 0) = some "r" := by decide
  have h := C1_parent_present scenarioTokens 0 _ "r" hr hk
  have hmem : (rootOf (buildTree scenarioTokens 0)).children.getD 0
      (TokenNode.mk "" "" "" "" "" 0 []) ∈ properNodes (rootOf (buildTree scenarioTokens 0)) := by
    decide
  rw [hr] at hmem
  rw [hr]
  exact h _ hmem

/-- In a key/node correspondence whose relation fixes the key as a function
of the node, mapping that function over the nodes recovers the keys. -/
theorem forall₂_map_eq {α β : Type} {R : α → β → Prop} {f : β → α} :
    ∀ {l1 : List α} {l2 : List β}, List.Forall₂ R l1 l2 → (∀ a b, R a b → f b = a) →
      l2.map f = l1 := by
  intro l1 l2 h hf
  induction h with
  | nil => rfl
  | cons hR hrest ih => rw [List.map_cons, hf _ _ hR, ih]

/-- C5 (amended): with no visible sentinel-parent record the root is
synthesized with the sentinel address, zero value and display fields
`Root`/`ROOT`/`USD`, and its children are *all* visible nodes — one per
node-map entry (so a node whose parent is visible also hangs under that
parent, appearing twice). -/
theorem C5_synthetic_root (tokens : List TokenInfo) (minTvl : ℚ) (r : BuildResult)
    (h : buildTree tokens minTvl = some r)
    (hk : rootKeyOf (nodeMapOf tokens minTvl) = none) :
    r.root.address = zeroAddress ∧ r.root.name = "Root" ∧ r.root.symbol = "ROOT" ∧
      r.root.currency = "USD" ∧ r.root.quoteToken = zeroAddress ∧ r.root.totalSupply = 0 ∧
      List.Perm (r.root.children.map (fun c => lower c.address))
        (keysOf (nodeMapOf tokens minTvl)) := by
  rw [buildTree_synthetic hk] at h
  cases hn : buildForest (nodeMapOf tokens minTvl) (tokens.length + 1)
      (keysOf (nodeMapOf tokens minTvl)) with
  | none => rw [hn] at h; cases h
  | some kids =>
    rw [hn] at h
    cases h
    refine ⟨rfl, rfl, rfl, rfl, rfl, rfl, ?_⟩
    have hall := buildLevel_forall₂ (fun k' n' h' =>
        (buildNode_good (KeyInv_nodeMapOf tokens minTvl)
          (nodup_keys_nodeMapOf tokens minTvl) (tokens.length + 1) k' n' h').1) hn
    have hmapeq : kids.map (fun c => lower c.address) = keysOf (nodeMapOf tokens minTvl) :=
      forall₂_map_eq hall (fun a b hb => by
        obtain ⟨t, -, -, -, -, -, -, -, h8⟩ := hb
        exact h8)
    show List.Perm ((isortNodes (sortForest kids)).map (fun c => lower c.address)) _
    have hperm : List.Perm ((isortNodes (sortForest kids)).map (fun c => lower c.address))
        ((sortForest kids).map (fun c => lower c.address)) :=
      (perm_isortNodes (sortForest kids)).map _
    have heq : (sortForest kids).map (fun c => lower c.address) =
        kids.map (fun c => lower c.address) := by
      rw [sortForest_eq_map, List.map_map]
      exact List.map_congr_left (fun c _ => by simp [sortTree_address])
    rw [heq, hmapeq] at hperm
    exact hperm

/-- Witness for the amended C5 at the orphan records: the synthetic root
carries both visible nodes as children. -/
theorem C5_witness :
    (rootOf (buildTree orphanTokens 0)).name = "Root" ∧
      List.Perm ((rootOf (buildTree orphanTokens 0)).children.map (fun c => lower c.address))
        (keysOf (nodeMapOf orphanTokens 0)) := by
  have hs : (buildTree orphanTokens 0).isSome = true := by decide
  have hr : buildTree orphanTokens 0 = some ((buildTree orphanTokens 0).get hs) :=
    (Option.some_get hs).symm
  have hk : rootKeyOf (nodeMapOf orphanTokens 0) = none := by decide
  have h := C5_synthetic_root orphanTokens 0 _ hr hk
  rw [hr]
  exact ⟨h.2.1, h.2.2.2.2.2.2⟩

/-! ### Counting and duplicate-address claims -/

/-- A record-index key is a normalized address of some record. -/
theorem mem_keys_byAddrOf {tokens : List TokenInfo} {k : String} :
    k ∈ keysOf (byAddrOf tokens) ↔ ∃ t ∈ tokens, lower t.address = k := by
  rw [← mapGet_isSome_iff, mapGet_byAddrOf, List.getLast?_isSome]
  constructor
  · intro hne
    rcases List.exists_mem_of_ne_nil _ hne with ⟨u, hu⟩
    have := List.mem_filter.mp hu
    exact ⟨u, this.1, by simpa using this.2⟩
  · rintro ⟨u, hu, ha⟩
    intro hnil
    have : u ∈ tokens.filter (fun t => lower t.address = k) :=
      List.mem_filter.mpr ⟨hu, by simpa using ha⟩
    rw [hnil] at this
    cases this

/-- Two duplicate-free lists with the same members have the same length. -/
theorem length_eq_of_nodup_iff {l1 l2 : List String} (h1 : l1.Nodup) (h2 : l2.Nodup)
    (h : ∀ a, a ∈ l1 ↔ a ∈ l2) : l1.length = l2.length :=
  Nat.le_antisymm ((h1.subperm (fun a ha => (h a).mp ha)).length_le)
    ((h2.subperm (fun a ha => (h a).mpr ha)).length_le)

/-- C6 (amended): `tokenCount` is the number of distinct normalized
addresses; `visibleCount` is the number of distinct addresses passing the
visibility filter (the node-map size), which may exceed the number of nodes
reachable in the output tree. -/
theorem C6_counts (tokens : List TokenInfo) (minTvl : ℚ) (r : BuildResult)
    (h : buildTree tokens minTvl = some r) :
    r.tokenCount = ((tokens.map (fun t => lower t.address)).dedup).length ∧
      r.visibleCount = (((tokens.map (fun t => lower t.address)).dedup).filter
        (fun a => a ∈ visibleSetOf tokens minTvl)).length := by
  obtain ⟨h1, h2⟩ := buildTree_counts h
  constructor
  · rw [h1, show (byAddrOf tokens).length = (keysOf (byAddrOf tokens)).length by
      simp [keysOf]]
    refine length_eq_of_nodup_iff (nodup_keys_byAddrOf tokens) (List.nodup_dedup _) ?_
    intro a
    rw [mem_keys_byAddrOf, List.mem_dedup, List.mem_map]
  · rw [h2, show (nodeMapOf tokens minTvl).length =
        (keysOf (nodeMapOf tokens minTvl)).length by simp [keysOf]]
    refine length_eq_of_nodup_iff (nodup_keys_nodeMapOf tokens minTvl)
      ((List.nodup_dedup _).filter _) ?_
    intro a
    rw [mem_keys_nodeMapOf, List.mem_filter, List.mem_dedup, List.mem_map]
    constructor
    · rintro ⟨hv, t, ht, ha⟩
      exact ⟨⟨t, ht, ha⟩, by simpa using hv⟩
    · rintro ⟨⟨t, ht, ha⟩, hv⟩
      exact ⟨by simpa using hv, t, ht, ha⟩

/-- Witness for the amended C6 at the scenario records and threshold 100. -/
theorem C6_witness :
    visibleCountOf (buildTree scenarioTokens 100) =
      (((scenarioTokens.map (fun t => lower t.address)).dedup).filter
        (fun a => a ∈ visibleSetOf scenarioTokens 100)).length := by
  have hs : (buildTree scenarioTokens 100).isSome = true := by decide
  have hr : buildTree scenarioTokens 100 = some ((buildTree scenarioTokens 100).get hs) :=
    (Option.some_get hs).symm
  have h := C6_counts scenarioTokens 100 _ hr
  rw [hr]
  exact h.2

/-- C10 (amended): with duplicate normalized addresses the later record
supplies the entry stored in the record index and (when visible) the node
map, and the pair counts once; but *all* records still feed the visibility
passes — an overwritten sentinel-parented record still seeds visibility,
and an overwritten record meeting the threshold still marks its address. -/
theorem C10_last_record_wins (tokens : List TokenInfo) (minTvl : ℚ) (k : String) :
    (mapGet (byAddrOf tokens) k =
        (tokens.filter (fun t => lower t.address = k)).getLast?) ∧
      (mapGet (nodeMapOf tokens minTvl) k =
        if k ∈ visibleSetOf tokens minTvl then
          (tokens.filter (fun t => lower t.address = k)).getLast? else none) ∧
      (∀ t ∈ tokens, lower t.quoteToken = zeroAddrL →
        lower t.address ∈ visibleSetOf tokens minTvl) ∧
      (∀ t ∈ tokens, 0 < minTvl → minTvl ≤ t.totalSupply → lower t.address ≠ "" →
        lower t.address ∈ visibleSetOf tokens minTvl) := by
  refine ⟨mapGet_byAddrOf tokens k, mapGet_nodeMapOf tokens minTvl k, ?_, ?_⟩
  · intro t ht hq
    exact seeds_subset_visible tokens minTvl (mem_seedsOf.mpr ⟨t, ht, hq, rfl⟩)
  · intro t ht h0 hle hne
    rw [visibleSetOf, if_neg (not_le.mpr h0)]
    exact mem_walk_foldl (mem_meetsOf.mpr ⟨t, ht, hle, rfl⟩) hne _

/-- Witness for the amended C10: the stored record at address `A` is the
later, low-value one, yet the address is visible at threshold 100 thanks to
the overwritten record's value. -/
theorem C10_witness :
    mapGet (byAddrOf dupValueTokens) "a" = some dupLow ∧
      "a" ∈ visibleSetOf dupValueTokens 100 := by
  have h := C10_last_record_wins dupValueTokens 100 "a"
  constructor
  · rw [h.1]
    decide
  · have := h.2.2.2 dupHigh (by decide) (by norm_num) (by decide) (by decide)
    simpa using this

end TempoDex
